import Mathlib

/-!
Verification of the `x79d8` layered integer-keyed block store against its
natural-language specification.

The development shallowly embeds the store stack:
`FsIntKv` (src/intkv/backend/fs.rs), `EncIntKv` (src/intkv/wrapper/enc.rs),
`BufferedIntKv` (src/intkv/wrapper/buffered.rs), `PageIntKv`
(src/intkv/wrapper/page.rs), the in-memory backend `MemIntKv`
(src/intkv/backend/mem.rs) and the FTP filesystem mapping `IntKvFtpFs`
(src/ftpfs.rs).

Machine integers (`u64`, `u32`, `usize`) are modelled as `Nat` with explicit
`% 2^64` / `% 2^32` where the source relies on wrapping; byte strings are
lists of `Nat` (one byte per element).  Fallible Rust methods return
`Except Err`; methods on `&mut self` thread their state explicitly because a
Rust early `return Err(..)` keeps mutations already made.
-/

set_option maxHeartbeats 1000000

namespace X79d8

/-- Error kinds: `io::ErrorKind` values produced by the store layers plus the
`libunftp::storage::ErrorKind` values produced by the filesystem mapping. -/
inductive Err where
  | notFound
  | invalidData
  | writeZero
  | unexpectedEof
  | permissionDenied
  | alreadyExists
  | fileNotAvailable
  | fileNameNotAllowed
  | localError
  | other
deriving DecidableEq, Repr

/-- Byte strings (`minibytes::Bytes` / `Vec<u8>` in the source); each element
is one byte value. -/
abbrev Bytes := List Nat

/-! ### Ordered association maps

`BTreeMap<K, V>` is modelled as a list of key-value pairs that the insert
operation keeps in strictly ascending key order, matching the ordered
iteration of the Rust type. -/

/-- `BTreeMap<K, V>` as an ordered association list. -/
abbrev Kmap (κ α : Type) : Type := List (κ × α)

/-- `BTreeMap::get`. -/
def lookupK {κ α : Type} [DecidableEq κ] : Kmap κ α → κ → Option α
  | [], _ => none
  | (k', v) :: t, k => if k = k' then some v else lookupK t k

/-- `BTreeMap::insert` (replaces the value of an existing key; keeps keys
sorted). -/
def insertK {κ α : Type} [DecidableEq κ] [LT κ] [DecidableRel (α := κ) (· < ·)]
    (k : κ) (v : α) : Kmap κ α → Kmap κ α
  | [] => [(k, v)]
  | (k', v') :: t =>
    if k = k' then (k, v) :: t
    else if k < k' then (k, v) :: (k', v') :: t
    else (k', v') :: insertK k v t

/-- `BTreeMap::remove` (dropping the returned value). -/
def eraseK {κ α : Type} [DecidableEq κ] (k : κ) : Kmap κ α → Kmap κ α
  | [] => []
  | (k', v') :: t => if k = k' then t else (k', v') :: eraseK k t

/-- `BTreeMap::contains_key`. -/
def containsK {κ α : Type} [DecidableEq κ] (m : Kmap κ α) (k : κ) : Bool :=
  (lookupK m k).isSome

/-- `BTreeMap::append`: move all entries of `b` into `a`, entries of `b`
overriding entries of `a` with the same key. -/
def appendK {κ α : Type} [DecidableEq κ] [LT κ] [DecidableRel (α := κ) (· < ·)]
    (a b : Kmap κ α) : Kmap κ α :=
  b.foldl (fun acc p => insertK p.1 p.2 acc) a

/-! ### Integers and big-endian encoding -/

/-- Truncation to `u64` (Rust wrapping arithmetic). -/
def u64 (n : Nat) : Nat := n % 2 ^ 64

/-- Truncation to `u32`. -/
def u32 (n : Nat) : Nat := n % 2 ^ 32

/-- `u64::to_be_bytes`. -/
def be64 (n : Nat) : Bytes :=
  [n / 2 ^ 56 % 256, n / 2 ^ 48 % 256, n / 2 ^ 40 % 256, n / 2 ^ 32 % 256,
   n / 2 ^ 24 % 256, n / 2 ^ 16 % 256, n / 2 ^ 8 % 256, n % 256]

/-- `u64::from_be_bytes` (big-endian fold). -/
def beNat (l : Bytes) : Nat := l.foldl (fun a b => a * 256 + b) 0

/-- The random number generator (`rand::RngCore`): an arbitrary stream of
draws together with a cursor. -/
structure Rng where
  stream : Nat → Nat
  pos : Nat

/-- `RngCore::next_u64`. -/
def Rng.nextU64 (r : Rng) : Nat × Rng :=
  (u64 (r.stream r.pos), { r with pos := r.pos + 1 })

/-- `rand::random::<u32>()` style draw. -/
def Rng.nextU32 (r : Rng) : Nat × Rng :=
  (u32 (r.stream r.pos), { r with pos := r.pos + 1 })

/-! ### The in-memory backend (src/intkv/backend/mem.rs)

`MemIntKv = BTreeMap<usize, Bytes>`; it is the lower layer used by the
source's own tests of the wrapper layers, and is the pure store the wrapper
layers are verified over here. -/

/-- `MemIntKv`. -/
abbrev MemIntKv : Type := Kmap Nat Bytes

/-- `MemIntKv::read`. -/
def MemIntKv.read (m : MemIntKv) (index : Nat) : Except Err Bytes :=
  match lookupK m index with
  | some b => .ok b
  | none => .error .notFound

/-- `MemIntKv::write`. -/
def MemIntKv.write (m : MemIntKv) (index : Nat) (data : Bytes) : MemIntKv :=
  insertK index data m

/-- `MemIntKv::remove`: state-threaded, an error leaves the map unchanged. -/
def MemIntKv.remove (m : MemIntKv) (index : Nat) : Except Err Unit × MemIntKv :=
  match lookupK m index with
  | some _ => (.ok (), eraseK index m)
  | none => (.error .notFound, m)

/-- `MemIntKv::has`. -/
def MemIntKv.has (m : MemIntKv) (index : Nat) : Bool :=
  containsK m index

/-! ### CFB mode (the `cfb_mode` crate over `aes::Aes256`)

Modelled from the spec: the block cipher itself (`Aes256`) and the digest
(`Blake2s256`) are external crates; they enter the model as opaque function
parameters.  Full-block CFB is implemented here: each 16-byte ciphertext
segment is the XOR of the plaintext segment with the block encryption of the
previous ciphertext segment (the IV for the first one); a final partial
segment uses a prefix of the keystream. -/

/-- Pointwise XOR of two byte strings (Rust XORs equal-length buffers;
`zipWith` truncates to the shorter input). -/
def zipXor (a b : Bytes) : Bytes := List.zipWith Nat.xor a b

/-- CFB encryption with block function `E` and previous ciphertext block
(initially the IV) `prev`. -/
def cfbEncrypt (E : Bytes → Bytes) (prev : Bytes) (pt : Bytes) : Bytes :=
  if h : pt = [] then []
  else
    zipXor (E prev) (pt.take 16) ++
      cfbEncrypt E (zipXor (E prev) (pt.take 16)) (pt.drop 16)
termination_by pt.length
decreasing_by
  have hl : 0 < pt.length := List.length_pos.mpr h
  simp only [List.length_drop]
  omega

/-- CFB decryption. -/
def cfbDecrypt (E : Bytes → Bytes) (prev : Bytes) (ct : Bytes) : Bytes :=
  if h : ct = [] then []
  else
    zipXor (E prev) (ct.take 16) ++ cfbDecrypt E (ct.take 16) (ct.drop 16)
termination_by ct.length
decreasing_by
  have hl : 0 < ct.length := List.length_pos.mpr h
  simp only [List.length_drop]
  omega

/-! ### The encryption layer (src/intkv/wrapper/enc.rs) -/

/-- The 16-byte `Count` header: a pair of big-endian `u64` words stored in
the clear in front of each ciphertext. -/
structure Count where
  c1 : Nat
  c2 : Nat
deriving DecidableEq, Repr

/-- `Count::new_random`: two fresh `next_u64` draws. -/
def Count.new_random (rng : Rng) : Count × Rng :=
  let (v1, rng) := rng.nextU64
  let (v2, rng) := rng.nextU64
  (⟨v1, v2⟩, rng)

/-- `Count::read_from`: parse the first 16 bytes, `UnexpectedEof` when the
block is shorter. -/
def Count.read_from (data : Bytes) : Except Err Count :=
  if data.length < 16 then .error .unexpectedEof
  else .ok ⟨beNat (data.take 8), beNat ((data.drop 8).take 8)⟩

/-- `Count::bump`: `c1 + (next_u64() | 1)` and `c2 + 1`, wrapping. -/
def Count.bump (c : Count) (rng : Rng) : Count × Rng :=
  let (v, rng) := rng.nextU64
  (⟨u64 (c.c1 + (v ||| 1)), u64 (c.c2 + 1)⟩, rng)

/-- `Count::to_bytes`. -/
def Count.to_bytes (c : Count) : Bytes := be64 c.c1 ++ be64 c.c2

/-- External cryptographic primitives used by `EncIntKv`.  Modelled from the
spec: `aes` is the AES-256 block encryption of the `aes` crate (key, then a
16-byte block); `blake` is the `Blake2s256` digest of the `blake2` crate.
Both are external to this repository and kept abstract. -/
structure EncCtx where
  aes : Bytes → Bytes → Bytes
  blake : Bytes → Bytes

/-- `EncIntKv`: master key, RNG, and the inner store (instantiated with the
in-memory backend, as in the source's own test harness). -/
structure EncIntKv where
  key : Bytes
  rng : Rng
  kv : MemIntKv

/-- `EncIntKv::iv`: the first 16 bytes of
`Blake2s(key ‖ count_bytes ‖ big_endian(index as u64))`. -/
def EncIntKv.iv (ctx : EncCtx) (key : Bytes) (index : Nat) (count : Count) : Bytes :=
  (ctx.blake (key ++ count.to_bytes ++ be64 index)).take 16

/-- `EncIntKv::read`: fetch below, parse `Count`, derive the IV, decrypt the
remainder. -/
def EncIntKv.read (ctx : EncCtx) (s : EncIntKv) (index : Nat) : Except Err Bytes :=
  match MemIntKv.read s.kv index with
  | .error e => .error e
  | .ok data =>
    match Count.read_from data with
    | .error e => .error e
    | .ok count =>
      .ok (cfbDecrypt (ctx.aes s.key) (EncIntKv.iv ctx s.key index count) (data.drop 16))

/-- `EncIntKv::write`: bump the prior `Count` when the index exists below
(fresh random `Count` otherwise), prepend its bytes and encrypt the payload
in place after the 16-byte header. -/
def EncIntKv.write (ctx : EncCtx) (s : EncIntKv) (index : Nat) (data : Bytes) :
    Except Err Unit × EncIntKv :=
  let step : Except Err (Count × Rng) :=
    if MemIntKv.has s.kv index then
      match MemIntKv.read s.kv index with
      | .error e => .error e
      | .ok oldData =>
        match Count.read_from oldData with
        | .error e => .error e
        | .ok c => .ok (c.bump s.rng)
    else
      .ok (Count.new_random s.rng)
  match step with
  | .error e => (.error e, s)
  | .ok (count, rng') =>
    let newData := count.to_bytes ++ data
    let out := newData.take 16 ++
      cfbEncrypt (ctx.aes s.key) (EncIntKv.iv ctx s.key index count) (newData.drop 16)
    (.ok (), { s with rng := rng', kv := MemIntKv.write s.kv index out })

/-- `EncIntKv::remove`: delegate to the layer below (the `Count` of the
removed block is forgotten). -/
def EncIntKv.remove (s : EncIntKv) (index : Nat) : Except Err Unit × EncIntKv :=
  match MemIntKv.remove s.kv index with
  | (.ok (), kv') => (.ok (), { s with kv := kv' })
  | (.error e, _) => (.error e, s)

/-- `EncIntKv::has`: delegate to the layer below. -/
def EncIntKv.has (s : EncIntKv) (index : Nat) : Bool :=
  MemIntKv.has s.kv index

/-! ### The buffering layer (src/intkv/wrapper/buffered.rs)

The cache is behind a `RwLock`, so reads mutate it through interior
mutability; every operation therefore returns the updated state.  An absent
cache entry plays the role of `State::Unknown` (the source never stores
`Unknown`). -/

/-- Cache entry (`State` in buffered.rs): loaded bytes, or a memoized
existence bit (`Has(false)` is a proven-absent negative entry). -/
inductive CacheState where
  | data (b : Bytes)
  | has (b : Bool)
deriving DecidableEq, Repr

/-- `BufferedIntKv` over the in-memory backend. -/
structure BufferedIntKv where
  cache : Kmap Nat CacheState
  cache_size_limit : Nat
  cache_size : Nat
  changes : Kmap Nat (Option Bytes)
  kv : MemIntKv

/-- `BufferedIntKv::read`.  On a cache miss the value is loaded from below
and accounted; if the limit is positive and the *previous* `cache_size`
(the value `fetch_add` returns) exceeds it, the whole cache is cleared
before the new entry is inserted. -/
def BufferedIntKv.read (s : BufferedIntKv) (index : Nat) :
    Except Err Bytes × BufferedIntKv :=
  match lookupK s.changes index with
  | some (some b) => (.ok b, s)
  | some none => (.error .notFound, s)
  | none =>
    match lookupK s.cache index with
    | some (.has false) => (.error .notFound, s)
    | some (.data b) => (.ok b, s)
    | some (.has true) =>
      match MemIntKv.read s.kv index with
      | .error e => (.error e, s)
      | .ok b => (.ok b, { s with cache := insertK index (.data b) s.cache })
    | none =>
      match MemIntKv.read s.kv index with
      | .error e =>
        if e = .notFound then
          (.error e, { s with cache := insertK index (.has false) s.cache })
        else (.error e, s)
      | .ok b =>
        let size := s.cache_size
        if 0 < s.cache_size_limit ∧ s.cache_size_limit < size then
          (.ok b, { s with cache_size := size + b.length - size,
                           cache := insertK index (.data b) [] })
        else
          (.ok b, { s with cache_size := size + b.length,
                           cache := insertK index (.data b) s.cache })

/-- `BufferedIntKv::write`: record the pending change only. -/
def BufferedIntKv.write (s : BufferedIntKv) (index : Nat) (data : Bytes) :
    BufferedIntKv :=
  { s with changes := insertK index (some data) s.changes }

/-- `BufferedIntKv::has`. -/
def BufferedIntKv.has (s : BufferedIntKv) (index : Nat) : Bool × BufferedIntKv :=
  match lookupK s.changes index with
  | some (some _) => (true, s)
  | some none => (false, s)
  | none =>
    match lookupK s.cache index with
    | some (.has b) => (b, s)
    | some (.data _) => (true, s)
    | none =>
      let b := MemIntKv.has s.kv index
      (b, { s with cache := insertK index (.has b) s.cache })

/-- `BufferedIntKv::remove`: record a pending deletion when the index
exists (considering this layer's own state), `NotFound` otherwise. -/
def BufferedIntKv.remove (s : BufferedIntKv) (index : Nat) :
    Except Err Unit × BufferedIntKv :=
  match BufferedIntKv.has s index with
  | (true, s') => (.ok (), { s' with changes := insertK index none s'.changes })
  | (false, s') => (.error .notFound, s')

/-! ### The filesystem-backed layer (src/intkv/backend/fs.rs)

The directory is modelled as two maps: `disk` for committed files (name
`<i>`) and `pending` for pending files (name `<i>p`), plus the in-memory
overlay.  The WAL commit protocol (`flush_wal` / `wal_checkpoint`) is not
needed by any claim and is not modelled. -/

/-- Overlay entry (`State` in fs.rs). -/
inductive FsState where
  | modified
  | removed
deriving DecidableEq, Repr

/-- `FsIntKv`. -/
structure FsIntKv where
  disk : Kmap Nat Bytes
  pending : Kmap Nat Bytes
  overlay : Kmap Nat FsState

/-- `FsIntKv::read`: an overlaid `Removed` is `NotFound`; a `Modified` index
reads the pending file, otherwise the committed file; a missing file is
`NotFound`. -/
def FsIntKv.read (s : FsIntKv) (index : Nat) : Except Err Bytes :=
  match lookupK s.overlay index with
  | some .removed => .error .notFound
  | some .modified =>
    match lookupK s.pending index with
    | some b => .ok b
    | none => .error .notFound
  | none =>
    match lookupK s.disk index with
    | some b => .ok b
    | none => .error .notFound

/-- `FsIntKv::write`: record `Modified` and write the pending file. -/
def FsIntKv.write (s : FsIntKv) (index : Nat) (data : Bytes) : FsIntKv :=
  { s with overlay := insertK index .modified s.overlay,
           pending := insertK index data s.pending }

/-- `FsIntKv::has`. -/
def FsIntKv.has (s : FsIntKv) (index : Nat) : Bool :=
  match lookupK s.overlay index with
  | some .removed => false
  | some .modified => true
  | none => containsK s.disk index

/-- `FsIntKv::remove`. -/
def FsIntKv.remove (s : FsIntKv) (index : Nat) : Except Err Unit × FsIntKv :=
  match lookupK s.overlay index with
  | some .removed => (.error .notFound, s)
  | some .modified =>
    match lookupK s.pending index with
    | none => (.error .notFound, s)
    | some _ =>
      (.ok (), { s with pending := eraseK index s.pending,
                        overlay := insertK index .removed s.overlay })
  | none =>
    if FsIntKv.has s index then
      (.ok (), { s with overlay := insertK index .removed s.overlay })
    else (.error .notFound, s)

/-! ### The paging layer (src/intkv/wrapper/page.rs)

Serialization follows `util::bincode_opts()`: big-endian, fixed-width
integers (`u64`), maps as a `u64` length prefix followed by the key-value
pairs in ascending key order, byte strings length-prefixed, trailing bytes
allowed on deserialization.  `#[serde(skip)]` fields (`page_index`) are not
serialized.

Loops whose termination rests on runtime data (chain walks, random index
sampling, the meta packing loop) take an explicit fuel argument; exhausted
fuel is reported as `Err.other`, which never occurs for the fuel values used
by the theorems below.  The model is the release build: `debug_assert!` and
the debug-only `verify()` integrity check are omitted. -/

/-- A chunk of a logical value inside a data page. -/
structure Chunk where
  next_page_index : Nat
  data : Bytes
deriving DecidableEq, Repr

/-- A data page (`chunks: BTreeMap<u64, Chunk>` plus the unserialized
`page_index`). -/
structure DataPage where
  chunks : Kmap Nat Chunk
  page_index : Nat
deriving DecidableEq, Repr

/-- A meta page. -/
structure MetaPage where
  next_page_index : Nat
  map_index : Kmap Nat Nat
  data_size_indexes : Kmap Nat Nat
  page_index : Nat
deriving DecidableEq, Repr

/-- Serialization of one `(logical_index, Chunk)` map entry:
`u64` key, `u64` next page index, length-prefixed chunk bytes. -/
def serializeChunkEntry (e : Nat × Chunk) : Bytes :=
  be64 e.1 ++ be64 e.2.next_page_index ++ be64 e.2.data.length ++ e.2.data

/-- Bincode serialization of a `DataPage`. -/
def serializeDataPage (p : DataPage) : Bytes :=
  be64 p.chunks.length ++ (p.chunks.map serializeChunkEntry).flatten

/-- Bincode serialization of a `BTreeMap<u64, u64>`. -/
def serializeNNMap (m : Kmap Nat Nat) : Bytes :=
  be64 m.length ++ (m.map (fun e => be64 e.1 ++ be64 e.2)).flatten

/-- Bincode serialization of a `MetaPage`. -/
def serializeMetaPage (p : MetaPage) : Bytes :=
  be64 p.next_page_index ++ serializeNNMap p.map_index ++
    serializeNNMap p.data_size_indexes

/-- `util::bincode_size` of a data page: the length of its serialization. -/
def bincode_size_data (p : DataPage) : Nat := (serializeDataPage p).length

/-- `util::bincode_size` of a meta page. -/
def bincode_size_meta (p : MetaPage) : Nat := (serializeMetaPage p).length

/-- `util::bincode_serialize_pad`: pad the serialization with zero bytes to
`page_size` (`page_size = 0` means no padding).  The source `assert!`s that
the serialization fits; the panic is modelled as an error. -/
def bincode_serialize_pad (bytes : Bytes) (page_size : Nat) : Except Err Bytes :=
  if page_size = 0 then .ok bytes
  else if bytes.length ≤ page_size then
    .ok (bytes ++ List.replicate (page_size - bytes.length) 0)
  else .error .other

/-- Read one big-endian `u64` from the front of a byte string. -/
def parseU64 (b : Bytes) : Option (Nat × Bytes) :=
  if 8 ≤ b.length then some (beNat (b.take 8), b.drop 8) else none

/-- Parse `n` `(u64, Chunk)` entries, inserting them into `acc` in input
order (as `BTreeMap` deserialization does). -/
def parseChunkEntries : Nat → Kmap Nat Chunk → Bytes → Option (Kmap Nat Chunk × Bytes)
  | 0, acc, b => some (acc, b)
  | n + 1, acc, b => do
    let (k, b) ← parseU64 b
    let (next, b) ← parseU64 b
    let (len, b) ← parseU64 b
    if len ≤ b.length then
      parseChunkEntries n (insertK k ⟨next, b.take len⟩ acc) (b.drop len)
    else none

/-- Bincode deserialization of a `DataPage` body (trailing bytes allowed). -/
def parseDataPage (b : Bytes) : Option (Kmap Nat Chunk) := do
  let (n, b) ← parseU64 b
  let (chunks, _) ← parseChunkEntries n [] b
  some chunks

/-- Parse `n` `(u64, u64)` entries. -/
def parseNNEntries : Nat → Kmap Nat Nat → Bytes → Option (Kmap Nat Nat × Bytes)
  | 0, acc, b => some (acc, b)
  | n + 1, acc, b => do
    let (k, b) ← parseU64 b
    let (v, b) ← parseU64 b
    parseNNEntries n (insertK k v acc) b

/-- Bincode deserialization of a `MetaPage` body (trailing bytes allowed):
`(next_page_index, map_index, data_size_indexes)`. -/
def parseMetaPage (b : Bytes) : Option (Nat × Kmap Nat Nat × Kmap Nat Nat) := do
  let (next, b) ← parseU64 b
  let (n, b) ← parseU64 b
  let (mi, b) ← parseNNEntries n [] b
  let (m, b) ← parseU64 b
  let (ds, _) ← parseNNEntries m [] b
  some (next, mi, ds)

/-- `PageIntKv` over the in-memory backend.  `rand::random::<u32>()` draws
come from the explicit `rng` stream. -/
structure PageIntKv where
  page_size : Nat
  meta_pages : List Nat
  data_page_sizes : Kmap Nat Nat
  dirty_data_pages : Kmap Nat DataPage
  map_index : Kmap Nat Nat
  kv : MemIntKv
  rng : Rng

/-- `PageIntKv::has`: a *logical* index exists iff it is a key of
`map_index`. -/
def PageIntKv.has (s : PageIntKv) (index : Nat) : Bool :=
  containsK s.map_index index

/-- `load_metadata`: walk the meta-page linked list from physical index 0,
merging each page's maps into the global maps and recording the ordered
page indices; a revisited index is a cycle (`InvalidData`). -/
def load_metadata_go (kv : MemIntKv) :
    Nat → List Nat → Kmap Nat Nat → Kmap Nat Nat → Nat →
    Except Err (List Nat × Kmap Nat Nat × Kmap Nat Nat)
  | 0, _, _, _, _ => .error .other
  | fuel + 1, pages, mi, ds, index =>
    if index ∈ pages then .error .invalidData
    else
      let pages := pages ++ [index]
      match MemIntKv.read kv index with
      | .error e => .error e
      | .ok data =>
        match parseMetaPage data with
        | none => .error .invalidData
        | some (next, pmi, pds) =>
          let mi := appendK mi pmi
          let ds := appendK ds pds
          if next = 0 then .ok (pages, mi, ds)
          else load_metadata_go kv fuel pages mi ds next

/-- `load_metadata`: entry point; a fresh store (physical index 0 absent)
yields empty metadata. -/
def load_metadata (kv : MemIntKv) (fuel : Nat) :
    Except Err (List Nat × Kmap Nat Nat × Kmap Nat Nat) :=
  if MemIntKv.has kv 0 then load_metadata_go kv fuel [] [] [] 0
  else .ok ([], [], [])

/-- `PageIntKv::new`. -/
def PageIntKv.new (page_size : Nat) (kv : MemIntKv) (rng : Rng) (fuel : Nat) :
    Except Err PageIntKv :=
  match load_metadata kv fuel with
  | .error e => .error e
  | .ok (metas, mi, ds) =>
    .ok { page_size := page_size, meta_pages := metas, data_page_sizes := ds,
          dirty_data_pages := [], map_index := mi, kv := kv, rng := rng }

/-- `PageIntKv::read_data_page`: a dirty page shadows the lower store. -/
def PageIntKv.read_data_page (s : PageIntKv) (index : Nat) : Except Err DataPage :=
  match lookupK s.dirty_data_pages index with
  | some page => .ok page
  | none =>
    match MemIntKv.read s.kv index with
    | .error e => .error e
    | .ok data =>
      match parseDataPage data with
      | none => .error .invalidData
      | some chunks => .ok ⟨chunks, index⟩

/-- `PageIntKv::write_data_page`: record the new serialized size and mark
the page dirty. -/
def PageIntKv.write_data_page (s : PageIntKv) (page : DataPage) : PageIntKv :=
  { s with
    data_page_sizes := insertK page.page_index (bincode_size_data page) s.data_page_sizes,
    dirty_data_pages := insertK page.page_index page s.dirty_data_pages }

/-- `PageIntKv::find_free_index_in_batch`: sample random `u32` indices,
keeping those for which `self.has` is false (note: this consults the
*logical* `map_index`, not physical page usage), until `n` distinct indices
are collected (a `BTreeSet`, modelled as a sorted list). -/
def PageIntKv.find_free_go (s : PageIntKv) (n : Nat) :
    Nat → List Nat → Rng → Except Err (List Nat × Rng)
  | 0, _, _ => .error .other
  | fuel + 1, acc, rng =>
    if n ≤ acc.length then .ok (acc, rng)
    else
      let (i, rng) := rng.nextU32
      if PageIntKv.has s i then PageIntKv.find_free_go s n fuel acc rng
      else PageIntKv.find_free_go s n fuel (insertSet i acc) rng
where
  insertSet (k : Nat) : List Nat → List Nat
    | [] => [k]
    | k' :: t =>
      if k = k' then k' :: t
      else if k < k' then k :: k' :: t
      else k' :: insertSet k t

/-- `PageIntKv::create_data_page`: allocate a "free" physical index and
register an empty dirty page there. -/
def PageIntKv.create_data_page (s : PageIntKv) (rfuel : Nat) :
    Except Err DataPage × PageIntKv :=
  match PageIntKv.find_free_go s 1 rfuel [] s.rng with
  | .error e => (.error e, s)
  | .ok ([], _) => (.error .other, s)
  | .ok (i :: _, rng') =>
    let page : DataPage := ⟨[], i⟩
    (.ok page, PageIntKv.write_data_page { s with rng := rng' } page)

/-- `PageIntKv::find_first_page_for_size`: for oversized values prefer the
existing data page of smallest recorded size (Rust `min_by_key` keeps the
last minimum) when it has at least `overhead` free bytes; otherwise the
first page where the whole value fits; otherwise a fresh page. -/
def PageIntKv.find_first_page_for_size (s : PageIntKv) (size rfuel : Nat) :
    Except Err DataPage × PageIntKv :=
  let overhead := 24
  let needed := size + overhead
  let minPage : Option (Nat × Nat) :=
    s.data_page_sizes.foldl
      (fun acc p =>
        match acc with
        | none => some p
        | some q => if p.2 ≤ q.2 then some p else some q) none
  let firstBranch : Option Nat :=
    if s.page_size < needed then
      match minPage with
      | some (pi, ps) => if ps + overhead < s.page_size then some pi else none
      | none => none
    else none
  match firstBranch with
  | some pi => (PageIntKv.read_data_page s pi, s)
  | none =>
    match s.data_page_sizes.find? (fun p => p.2 + needed ≤ s.page_size) with
    | some (pi, _) => (PageIntKv.read_data_page s pi, s)
    | none => PageIntKv.create_data_page s rfuel

/-- `PageIntKv::update_chunk`: remove the old chunk for `logical_index`,
insert a chunk carrying as much of `data` as fits, and return the next page
of the chain (reused from the prior chain or freshly allocated) together
with the remaining data. -/
def PageIntKv.update_chunk (s : PageIntKv) (page : DataPage) (logical_index : Nat)
    (data : Option Bytes) (rfuel : Nat) :
    Except Err (Option (DataPage × Option Bytes)) × PageIntKv :=
  let orig_chunk := lookupK page.chunks logical_index
  let page : DataPage := { page with chunks := eraseK logical_index page.chunks }
  let nextIndex := (orig_chunk.map Chunk.next_page_index).getD 0
  let nextRead : Except Err (Option DataPage) :=
    if nextIndex = 0 then .ok none
    else
      match PageIntKv.read_data_page s nextIndex with
      | .error e => .error e
      | .ok p => .ok (some p)
  match nextRead with
  | .error e => (.error e, s)
  | .ok next_page =>
    match data with
    | none =>
      (.ok (next_page.map (fun p => (p, none))), PageIntKv.write_data_page s page)
    | some data =>
      let max_page_size := s.page_size
      let overhead := 24
      let current_page_size := bincode_size_data page + overhead
      if max_page_size < current_page_size then (.error .writeZero, s)
      else
        let size := min (max_page_size - current_page_size) data.length
        let part := data.take size
        let needMore : Bool := decide (part.length < data.length)
        let next_data : Option Bytes := if needMore then some (data.drop size) else none
        let alloc : Except Err (Option DataPage) × PageIntKv :=
          if needMore ∧ next_page = none then
            match PageIntKv.create_data_page s rfuel with
            | (.error e, s') => (.error e, s')
            | (.ok p, s') => (.ok (some p), s')
          else (.ok next_page, s)
        match alloc with
        | (.error e, s') => (.error e, s')
        | (.ok next_page, s') =>
          let chunk : Chunk :=
            ⟨match next_page, next_data with
             | some p, some _ => p.page_index
             | _, _ => 0,
             part⟩
          let page : DataPage := { page with chunks := insertK logical_index chunk page.chunks }
          let s' := PageIntKv.write_data_page s' page
          (.ok (next_page.map (fun p => (p, next_data))), s')

/-- The chain-walking loop of `PageIntKv::update_logical_data`. -/
def PageIntKv.update_logical_go (index : Nat) :
    Nat → Nat → PageIntKv → DataPage → Option Bytes → Except Err Unit × PageIntKv
  | 0, _, s, _, _ => (.error .other, s)
  | fuel + 1, rfuel, s, page, data =>
    match PageIntKv.update_chunk s page index data rfuel with
    | (.error e, s') => (.error e, s')
    | (.ok none, s') => (.ok (), s')
    | (.ok (some (next_page, next_data)), s') =>
      PageIntKv.update_logical_go index fuel rfuel s' next_page next_data

/-- `PageIntKv::update_logical_data`: rewrite (or remove, when `data` is
`none`) the chain of pages holding `index`. -/
def PageIntKv.update_logical_data (s : PageIntKv) (index : Nat) (data : Option Bytes)
    (fuel rfuel : Nat) : Except Err Unit × PageIntKv :=
  let start : Except Err (DataPage × PageIntKv) :=
    match lookupK s.map_index index with
    | none =>
      match data with
      | none => .error .notFound
      | some d =>
        match PageIntKv.find_first_page_for_size s d.length rfuel with
        | (.error e, _) => .error e
        | (.ok page, s') =>
          .ok (page, { s' with map_index := insertK index page.page_index s'.map_index })
    | some id =>
      match PageIntKv.read_data_page s id with
      | .error e => .error e
      | .ok page => .ok (page, s)
  match start with
  | .error e => (.error e, s)
  | .ok (page, s') =>
    let s' := if data = none then { s' with map_index := eraseK index s'.map_index } else s'
    PageIntKv.update_logical_go index fuel rfuel s' page data

/-- `PageIntKv::read`: follow the chunk chain for `index`, concatenating the
chunk data (with the single-chunk fast path of the source). -/
def PageIntKv.readGo (s : PageIntKv) (index : Nat) :
    Nat → Nat → Bytes → Except Err Bytes
  | 0, _, _ => .error .other
  | fuel + 1, mapped, result =>
    if mapped = 0 then .ok result
    else
      match PageIntKv.read_data_page s mapped with
      | .error e => .error e
      | .ok page =>
        match lookupK page.chunks index with
        | none => .error .notFound
        | some chunk =>
          if chunk.next_page_index = 0 ∧ result = [] then .ok chunk.data
          else PageIntKv.readGo s index fuel chunk.next_page_index (result ++ chunk.data)

/-- `PageIntKv::read`. -/
def PageIntKv.read (s : PageIntKv) (index : Nat) (fuel : Nat) : Except Err Bytes :=
  match lookupK s.map_index index with
  | none => .error .notFound
  | some mapped => PageIntKv.readGo s index fuel mapped []

/-- `PageIntKv::write`. -/
def PageIntKv.write (s : PageIntKv) (index : Nat) (data : Bytes) (fuel rfuel : Nat) :
    Except Err Unit × PageIntKv :=
  PageIntKv.update_logical_data s index (some data) fuel rfuel

/-- `PageIntKv::remove`. -/
def PageIntKv.remove (s : PageIntKv) (index : Nat) (fuel rfuel : Nat) :
    Except Err Unit × PageIntKv :=
  PageIntKv.update_logical_data s index none fuel rfuel

/-- The data-page phase of `PageIntKv::flush`: delete empty dirty pages from
the lower store and the size map, write the others padded to the page
size. -/
def PageIntKv.flush_data_pages (P : Nat) :
    List (Nat × DataPage) → MemIntKv → Kmap Nat Nat →
    Except Err (MemIntKv × Kmap Nat Nat)
  | [], kv, sizes => .ok (kv, sizes)
  | (index, page) :: rest, kv, sizes =>
    if page.chunks = [] then
      if MemIntKv.has kv index then
        match MemIntKv.remove kv index with
        | (.ok _, kv') => PageIntKv.flush_data_pages P rest kv' (eraseK index sizes)
        | (.error e, _) => .error e
      else PageIntKv.flush_data_pages P rest kv (eraseK index sizes)
    else
      match bincode_serialize_pad (serializeDataPage page) P with
      | .error e => .error e
      | .ok bytes => PageIntKv.flush_data_pages P rest (MemIntKv.write kv index bytes) sizes

/-- The meta packing loop of `PageIntKv::flush`: fill the current (last)
meta page with up to `(P - size) / 16` entries from the `map_index`
iterator, then up to `(P - size) / 16` entries from the `data_page_sizes`
iterator; push a fresh meta page when nothing fit and entries remain.  The
source's `assert!(size <= page_size)` panics are modelled as errors. -/
def PageIntKv.pack_meta_go (P : Nat) :
    Nat → List MetaPage → MetaPage → List (Nat × Nat) → List (Nat × Nat) →
    Except Err (List MetaPage)
  | 0, _, _, _, _ => .error .other
  | mfuel + 1, done, cur, mapRem, dsRem =>
    if mapRem.length + dsRem.length = 0 then .ok (done ++ [cur])
    else
      let size := bincode_size_meta cur
      let n := (P - size) / 16
      let cur := { cur with map_index := appendK cur.map_index (mapRem.take n) }
      let mapRem := mapRem.drop n
      let size2 := bincode_size_meta cur
      if P < size2 then .error .other
      else
        let m := (P - size2) / 16
        let cur := { cur with data_size_indexes := appendK cur.data_size_indexes (dsRem.take m) }
        let dsRem := dsRem.drop m
        let size3 := bincode_size_meta cur
        if P < size3 then .error .other
        else if n + m = 0 ∧ 0 < mapRem.length + dsRem.length then
          PageIntKv.pack_meta_go P mfuel (done ++ [cur]) ⟨0, [], [], 0⟩ mapRem dsRem
        else
          PageIntKv.pack_meta_go P mfuel done cur mapRem dsRem

/-- The meta index assignment of `PageIntKv::flush` (for pages from position
1 on): reuse the old meta page index at the same position, otherwise take
the next free index (re-checked against `self.has`, the logical map). -/
def PageIntKv.assign_meta_go (s : PageIntKv) :
    List MetaPage → Nat → List Nat → Except Err (List MetaPage × List Nat)
  | [], _, free => .ok ([], free)
  | page :: rest, i, free =>
    match s.meta_pages.get? i with
    | some id =>
      match PageIntKv.assign_meta_go s rest (i + 1) free with
      | .error e => .error e
      | .ok (rest', free') => .ok ({ page with page_index := id } :: rest', free')
    | none =>
      match free with
      | [] => .error .other
      | id :: free' =>
        if PageIntKv.has s id then .error .other
        else
          match PageIntKv.assign_meta_go s rest (i + 1) free' with
          | .error e => .error e
          | .ok (rest', free'') => .ok ({ page with page_index := id } :: rest', free'')

/-- The linked-list fixing of `PageIntKv::flush`: each meta page's
`next_page_index` becomes the next page's physical index. -/
def PageIntKv.link_meta : List MetaPage → List MetaPage
  | [] => []
  | [p] => [p]
  | p :: q :: rest =>
    { p with next_page_index := q.page_index } :: PageIntKv.link_meta (q :: rest)

/-- The meta-page writing phase of `PageIntKv::flush`. -/
def PageIntKv.write_meta_pages (P : Nat) : List MetaPage → MemIntKv → Except Err MemIntKv
  | [], kv => .ok kv
  | p :: rest, kv =>
    match bincode_serialize_pad (serializeMetaPage p) P with
    | .error e => .error e
    | .ok bytes => PageIntKv.write_meta_pages P rest (MemIntKv.write kv p.page_index bytes)

/-- The removal of previously-used meta pages beyond the new sequence. -/
def PageIntKv.remove_old_metas : List Nat → MemIntKv → Except Err MemIntKv
  | [], kv => .ok kv
  | i :: rest, kv =>
    match MemIntKv.remove kv i with
    | (.ok _, kv') => PageIntKv.remove_old_metas rest kv'
    | (.error e, _) => .error e

/-- `PageIntKv::flush`.  On an internal error the source leaves a partially
flushed in-memory state behind; no claim concerns such states, so the error
case carries no state here. -/
def PageIntKv.flush (s : PageIntKv) (mfuel ffuel : Nat) : Except Err PageIntKv :=
  if s.dirty_data_pages = [] then .ok s
  else
    match PageIntKv.flush_data_pages s.page_size s.dirty_data_pages s.kv s.data_page_sizes with
    | .error e => .error e
    | .ok (kv1, sizes1) =>
      match PageIntKv.pack_meta_go s.page_size mfuel [] ⟨0, [], [], 0⟩ s.map_index sizes1 with
      | .error e => .error e
      | .ok pages =>
        let s' : PageIntKv :=
          { s with kv := kv1, data_page_sizes := sizes1, dirty_data_pages := [] }
        match PageIntKv.find_free_go s' pages.length ffuel [] s.rng with
        | .error e => .error e
        | .ok (free, rng1) =>
          match pages with
          | [] => .error .other
          | first :: rest =>
            match PageIntKv.assign_meta_go s' rest 1 free with
            | .error e => .error e
            | .ok (rest', _) =>
              let linked := PageIntKv.link_meta (first :: rest')
              match PageIntKv.write_meta_pages s.page_size linked kv1 with
              | .error e => .error e
              | .ok kv2 =>
                match PageIntKv.remove_old_metas (s.meta_pages.drop linked.length) kv2 with
                | .error e => .error e
                | .ok kv3 =>
                  .ok { s with
                        kv := kv3,
                        data_page_sizes := sizes1,
                        dirty_data_pages := [],
                        meta_pages := linked.map MetaPage.page_index,
                        rng := rng1 }

/-! ### The FTP filesystem mapping (src/ftpfs.rs)

Paths are modelled as lists of already-normalized name components (the
claims below only concern such paths; `CurDir`/`ParentDir`/non-UTF-8
components are rejected by the source before any tree access).  Trees and
blobs are bincode-serialized into the store by the source; that encoding is
injective and not consulted by any claim, so the store holds the structured
value directly (`FsVal`): reading a `.blob` as a tree is the
deserialization failure (`local_error()`), and the root index 0 absent is
an empty root tree.  `SystemTime` is a numeric timestamp passed in as
`now`. -/

/-- File metadata (`Meta` in ftpfs.rs). -/
structure Meta where
  len : Nat
  mode : Nat
  mtime : Nat
deriving DecidableEq, Repr

/-- `Metadata::is_dir`. -/
def Meta.is_dir (m : Meta) : Bool := m.mode = 0o040000

/-- `Metadata::is_file`. -/
def Meta.is_file (m : Meta) : Bool := m.mode = 0o100644

/-- `Meta::new_folder`. -/
def Meta.new_folder (now : Nat) : Meta := ⟨0, 0o040000, now⟩

/-- `Meta::new_file`. -/
def Meta.new_file (len now : Nat) : Meta := ⟨len, 0o100644, now⟩

/-- A value stored under one index of the store below the filesystem
mapping: a file payload or a serialized directory tree. -/
inductive FsVal where
  | blob (b : Bytes)
  | tree (items : Kmap String (Nat × Meta))
deriving DecidableEq, Repr

/-- The store as seen by `IntKvFtpFs` (the full wrapper stack presents the
plain store contract; its value-level behavior is that of a map). -/
abbrev FtpKv : Type := Kmap Nat FsVal

/-- A directory tree (`Tree`): the stored `items` plus the unserialized
`index` it was read from. -/
structure Tree where
  items : Kmap String (Nat × Meta)
  index : Nat
deriving DecidableEq, Repr

/-- `Tree::find`: `PermanentFileNotAvailable` when the name is absent. -/
def Tree.find (t : Tree) (name : String) : Except Err (Nat × Meta) :=
  match lookupK t.items name with
  | some v => .ok v
  | none => .error .fileNotAvailable

/-- `read_tree_by_id`: the absent root is an empty tree; bytes that are not
a serialized tree are a `local_error`. -/
def read_tree_by_id (kv : FtpKv) (index : Nat) : Except Err Tree :=
  if index = 0 ∧ containsK kv 0 = false then .ok ⟨[], 0⟩
  else
    match lookupK kv index with
    | none => .error .notFound
    | some (.blob _) => .error .localError
    | some (.tree items) => .ok ⟨items, index⟩

/-- The walk of `read_tree_by_path` below the root. -/
def read_tree_by_path_go (kv : FtpKv) : Tree → List String → Except Err Tree
  | tree, [] => .ok tree
  | tree, name :: rest =>
    match Tree.find tree name with
    | .error e => .error e
    | .ok (index, meta) =>
      if meta.is_dir then
        match read_tree_by_id kv index with
        | .error e => .error e
        | .ok t => read_tree_by_path_go kv t rest
      else .error .fileNotAvailable

/-- `read_tree_by_path`. -/
def read_tree_by_path (kv : FtpKv) (path : List String) : Except Err Tree :=
  match read_tree_by_id kv 0 with
  | .error e => .error e
  | .ok root => read_tree_by_path_go kv root path

/-- `read_tree_name_from_path`: the parent tree together with the final
name component. -/
def read_tree_name_from_path (kv : FtpKv) (path : List String) :
    Except Err (Tree × String) :=
  match read_tree_by_path kv path.dropLast with
  | .error e => .error e
  | .ok tree =>
    match path.getLast? with
    | none => .error .fileNotAvailable
    | some name => .ok (tree, name)

/-- `read_id_meta_by_path`. -/
def read_id_meta_by_path (kv : FtpKv) (path : List String) :
    Except Err (Nat × Meta) :=
  match read_tree_name_from_path kv path with
  | .error e => .error e
  | .ok (tree, name) =>
    match lookupK tree.items name with
    | none => .error .fileNotAvailable
    | some p => .ok p

/-- `read_blob_by_index` (`IntKv::read` of a payload index).  The claims
below only read indices holding file payloads; a tree's serialized bytes
are never read as a blob there. -/
def read_blob_by_index (kv : FtpKv) (index : Nat) : Except Err Bytes :=
  match lookupK kv index with
  | some (.blob b) => .ok b
  | some (.tree _) => .error .localError
  | none => .error .notFound

/-- `read_blob_by_path`: the entry must be a regular file. -/
def read_blob_by_path (kv : FtpKv) (path : List String) : Except Err Bytes :=
  match read_id_meta_by_path kv path with
  | .error e => .error e
  | .ok (id, meta) =>
    if meta.is_file then read_blob_by_index kv id
    else .error .permissionDenied

/-- `find_free_index`: sample random `u32` indices until one is not in the
store. -/
def ftp_find_free_index (kv : FtpKv) : Nat → Rng → Except Err (Nat × Rng)
  | 0, _ => .error .other
  | fuel + 1, rng =>
    let (i, rng') := rng.nextU32
    if containsK kv i then ftp_find_free_index kv fuel rng'
    else .ok (i, rng')

/-- `write_tree`: serialize the tree under its index. -/
def write_tree (kv : FtpKv) (tree : Tree) : FtpKv :=
  insertK tree.index (.tree tree.items) kv

/-- `create_tree`: an empty tree at a fresh index, written immediately. -/
def create_tree (kv : FtpKv) (rfuel : Nat) (rng : Rng) :
    Except Err (Tree × FtpKv × Rng) :=
  match ftp_find_free_index kv rfuel rng with
  | .error e => .error e
  | .ok (i, rng') =>
    let tree : Tree := ⟨[], i⟩
    .ok (tree, write_tree kv tree, rng')

/-- `create_blob`: store `data` at a fresh index. -/
def create_blob (kv : FtpKv) (data : Bytes) (rfuel : Nat) (rng : Rng) :
    Except Err (Nat × FtpKv × Rng) :=
  match ftp_find_free_index kv rfuel rng with
  | .error e => .error e
  | .ok (i, rng') => .ok (i, insertK i (.blob data) kv, rng')

/-- `StorageBackend::put` (src/ftpfs.rs:306-356): for `start > 0` read the
existing blob (`PermissionDenied` when shorter than `start`), build
`existing[0..start] ++ input`, store it under the entry's blob index
(fresh index for a new file), update `len`/`mtime`, write the parent tree
and return the number of bytes written. -/
def IntKvFtpFs.put (kv : FtpKv) (path : List String) (input : Bytes) (start : Nat)
    (now rfuel : Nat) (rng : Rng) : Except Err Nat × FtpKv × Rng :=
  let bufE : Except Err Bytes :=
    if 0 < start then
      match read_blob_by_path kv path with
      | .error e => .error e
      | .ok blob =>
        if blob.length < start then .error .permissionDenied
        else .ok (blob.take start)
    else .ok []
  match bufE with
  | .error e => (.error e, kv, rng)
  | .ok buf0 =>
    let buf := buf0 ++ input
    let written := buf.length - start
    match read_tree_name_from_path kv path with
    | .error e => (.error e, kv, rng)
    | .ok (tree, name) =>
      match lookupK tree.items name with
      | some (index, meta) =>
        if meta.is_file then
          let meta' : Meta := { meta with len := buf.length, mtime := now }
          let kv' := insertK index (.blob buf) kv
          let tree' : Tree := { tree with items := insertK name (index, meta') tree.items }
          (.ok written, write_tree kv' tree', rng)
        else (.error .permissionDenied, kv, rng)
      | none =>
        match create_blob kv buf rfuel rng with
        | .error e => (.error e, kv, rng)
        | .ok (index, kv', rng') =>
          let meta := Meta.new_file buf.length now
          let tree' : Tree := { tree with items := insertK name (index, meta) tree.items }
          (.ok written, write_tree kv' tree', rng')

/-- `StorageBackend::get`: the blob from offset `start` (empty when `start`
is at or past the end). -/
def IntKvFtpFs.get (kv : FtpKv) (path : List String) (start : Nat) :
    Except Err Bytes :=
  match read_blob_by_path kv path with
  | .error e => .error e
  | .ok blob =>
    if blob.length ≤ start then .ok []
    else .ok (blob.drop start)

/-- `StorageBackend::mkd`: refuse an existing name (`denied!`, i.e.
`PermissionDenied`), otherwise create a fresh tree block and insert a
directory entry into the parent. -/
def IntKvFtpFs.mkd (kv : FtpKv) (path : List String) (now rfuel : Nat) (rng : Rng) :
    Except Err Unit × FtpKv × Rng :=
  match read_tree_name_from_path kv path with
  | .error e => (.error e, kv, rng)
  | .ok (tree, name) =>
    if containsK tree.items name then (.error .permissionDenied, kv, rng)
    else
      match create_tree kv rfuel rng with
      | .error e => (.error e, kv, rng)
      | .ok (new_tree, kv', rng') =>
        let meta := Meta.new_folder now
        let tree' : Tree := { tree with items := insertK name (new_tree.index, meta) tree.items }
        (.ok (), write_tree kv' tree', rng')

/-- `StorageBackend::rename`: refuse an existing destination (`denied!`,
i.e. `PermissionDenied`); move the `(index, meta)` tuple, updating one tree
in place when source and destination parents coincide, otherwise writing
the destination parent and then the source parent. -/
def IntKvFtpFs.rename (kv : FtpKv) (fromP toP : List String) :
    Except Err Unit × FtpKv :=
  match read_tree_name_from_path kv fromP with
  | .error e => (.error e, kv)
  | .ok (from_tree, from_name) =>
    match read_tree_name_from_path kv toP with
    | .error e => (.error e, kv)
    | .ok (to_tree, to_name) =>
      if containsK to_tree.items to_name then (.error .permissionDenied, kv)
      else
        match Tree.find from_tree from_name with
        | .error e => (.error e, kv)
        | .ok item =>
          let to_tree' : Tree := { to_tree with items := insertK to_name item to_tree.items }
          if to_tree.index = from_tree.index then
            let to_tree'' : Tree := { to_tree' with items := eraseK from_name to_tree'.items }
            (.ok (), write_tree kv to_tree'')
          else
            let kv' := write_tree kv to_tree'
            let from_tree' : Tree := { from_tree with items := eraseK from_name from_tree.items }
            (.ok (), write_tree kv' from_tree')

/-- The tree indices `read_tree_by_path_go` reads while resolving the
remaining components (used to state which store indices a path resolution
depends on). -/
def tree_trace_go (kv : FtpKv) : Tree → List String → Except Err (List Nat)
  | _, [] => .ok []
  | tree, name :: rest =>
    match Tree.find tree name with
    | .error e => .error e
    | .ok (index, meta) =>
      if meta.is_dir then
        match read_tree_by_id kv index with
        | .error e => .error e
        | .ok t =>
          match tree_trace_go kv t rest with
          | .error e => .error e
          | .ok tr => .ok (index :: tr)
      else .error .fileNotAvailable

/-- The tree indices a full path resolution reads, starting with the root
index 0. -/
def tree_trace (kv : FtpKv) (p : List String) : Except Err (List Nat) :=
  match read_tree_by_id kv 0 with
  | .error e => .error e
  | .ok root =>
    match tree_trace_go kv root p with
    | .error e => .error e
    | .ok tr => .ok (0 :: tr)

/-- Spec-level description of one meta page of a stored meta-page chain:
its physical index, its `next_page_index` and its two maps as serialized in
the lower store. -/
structure MetaRec where
  idx : Nat
  next : Nat
  mi : Kmap Nat Nat
  ds : Kmap Nat Nat
deriving DecidableEq, Repr

/-- Spec-level description of a well-formed stored meta-page chain: every
record's bytes are present in the lower store and parse to the record, each
record's `next` is the following record's index, and no index after the
head is 0 (0 terminates the walk). -/
def ChainOk (kv : MemIntKv) : List MetaRec → Prop
  | [] => True
  | e :: rest =>
    (∃ bytes, lookupK kv e.idx = some bytes ∧
      parseMetaPage bytes = some (e.next, e.mi, e.ds)) ∧
    (match rest with
     | [] => True
     | e2 :: _ => e.next = e2.idx ∧ e2.idx ≠ 0) ∧
    ChainOk kv rest

/-- Decidable equality of results, for evaluating the model on concrete
inputs. -/
instance {ε α : Type} [DecidableEq ε] [DecidableEq α] : DecidableEq (Except ε α) :=
  fun x y =>
    match x, y with
    | .ok a, .ok b =>
      if h : a = b then .isTrue (by rw [h]) else .isFalse (by intro he; cases he; exact h rfl)
    | .error a, .error b =>
      if h : a = b then .isTrue (by rw [h]) else .isFalse (by intro he; cases he; exact h rfl)
    | .ok _, .error _ => .isFalse (by intro he; cases he)
    | .error _, .ok _ => .isFalse (by intro he; cases he)

/-! ### Lemmas: association maps -/

theorem lookupK_insertK_self {κ α : Type} [DecidableEq κ] [LT κ]
    [DecidableRel (α := κ) (· < ·)] (k : κ) (v : α) (m : Kmap κ α) :
    lookupK (insertK k v m) k = some v := by
  induction m with
  | nil => simp [insertK, lookupK]
  | cons p t ih =>
    obtain ⟨k', v'⟩ := p
    by_cases h1 : k = k'
    · simp [insertK, h1, lookupK]
    · by_cases h2 : k < k' <;> simp [insertK, h1, h2, lookupK, ih]

theorem lookupK_insertK_ne {κ α : Type} [DecidableEq κ] [LT κ]
    [DecidableRel (α := κ) (· < ·)] {j k : κ} (v : α) (m : Kmap κ α) (h : j ≠ k) :
    lookupK (insertK k v m) j = lookupK m j := by
  induction m with
  | nil => simp [insertK, lookupK, h]
  | cons p t ih =>
    obtain ⟨k', v'⟩ := p
    by_cases h1 : k = k'
    · subst h1
      simp [insertK, lookupK, h]
    · have h1' : ¬k' = k := fun hh => h1 hh.symm
      by_cases h2 : k < k' <;> by_cases h3 : j = k' <;>
        simp [insertK, h1, h1', h2, h3, lookupK, ih, h]

theorem lookupK_eraseK_ne {κ α : Type} [DecidableEq κ] {j k : κ} (m : Kmap κ α)
    (h : j ≠ k) : lookupK (eraseK k m) j = lookupK m j := by
  induction m with
  | nil => simp [eraseK]
  | cons p t ih =>
    obtain ⟨k', v'⟩ := p
    by_cases h1 : k = k'
    · subst h1
      simp [eraseK, lookupK, h]
    · by_cases h3 : j = k' <;> simp [eraseK, h1, h3, lookupK, ih]

/-! ### Lemmas: big-endian encoding and `Count` -/

theorem be64_length (n : Nat) : (be64 n).length = 8 := rfl

theorem beNat_be64 {n : Nat} (h : n < 2 ^ 64) : beNat (be64 n) = n := by
  simp only [be64, beNat, List.foldl]
  omega

theorem count_to_bytes_length (c : Count) : c.to_bytes.length = 16 := by
  simp [Count.to_bytes, be64]

theorem count_read_from_to_bytes (c : Count) (rest : Bytes)
    (h1 : c.c1 < 2 ^ 64) (h2 : c.c2 < 2 ^ 64) :
    Count.read_from (c.to_bytes ++ rest) = .ok c := by
  have hlen : (c.to_bytes ++ rest).length = 16 + rest.length := by
    simp [count_to_bytes_length]
  have htake : (c.to_bytes ++ rest).take 8 = be64 c.c1 := by
    rw [Count.to_bytes, List.append_assoc]
    have : (8 : Nat) = (be64 c.c1).length := (be64_length _).symm
    rw [this, List.take_left]
  have hdrop : (c.to_bytes ++ rest).drop 8 = be64 c.c2 ++ rest := by
    rw [Count.to_bytes, List.append_assoc]
    have : (8 : Nat) = (be64 c.c1).length := (be64_length _).symm
    rw [this, List.drop_left]
  have htake2 : ((c.to_bytes ++ rest).drop 8).take 8 = be64 c.c2 := by
    rw [hdrop]
    have : (8 : Nat) = (be64 c.c2).length := (be64_length _).symm
    rw [this, List.take_left]
  rw [Count.read_from, if_neg (by omega), htake, htake2, beNat_be64 h1, beNat_be64 h2]

theorem u64_lt (n : Nat) : u64 n < 2 ^ 64 := Nat.mod_lt _ (by norm_num)

theorem u64_succ_ne {c : Nat} (h : c < 2 ^ 64) : u64 (c + 1) ≠ c := by
  unfold u64
  omega

/-! ### Lemmas: CFB round trip -/

theorem zipXor_length (a b : Bytes) : (zipXor a b).length = min a.length b.length := by
  simp [zipXor]

theorem zipXor_zipXor : ∀ (ks p : Bytes), p.length ≤ ks.length →
    zipXor ks (zipXor ks p) = p := by
  intro ks p
  induction p generalizing ks with
  | nil => intro _; simp [zipXor]
  | cons x xs ih =>
    intro h
    cases ks with
    | nil => simp at h
    | cons k kt =>
      simp only [zipXor, List.zipWith]
      refine congrArg₂ _ ?_ (ih kt (by simpa using h))
      show k ^^^ (k ^^^ x) = x
      rw [← Nat.xor_assoc, Nat.xor_self, Nat.zero_xor]

theorem cfbEncrypt_nil (E : Bytes → Bytes) (prev : Bytes) :
    cfbEncrypt E prev [] = [] := by
  rw [cfbEncrypt]
  simp

theorem cfbDecrypt_nil (E : Bytes → Bytes) (prev : Bytes) :
    cfbDecrypt E prev [] = [] := by
  rw [cfbDecrypt]
  simp

theorem cfb_roundtrip_aux (E : Bytes → Bytes) (hE : ∀ x, (E x).length = 16) :
    ∀ (n : Nat) (pt prev : Bytes), pt.length ≤ n →
      cfbDecrypt E prev (cfbEncrypt E prev pt) = pt := by
  intro n
  induction n with
  | zero =>
    intro pt prev hlen
    have : pt = [] := List.length_eq_zero.mp (Nat.le_zero.mp hlen)
    subst this
    rw [cfbEncrypt_nil, cfbDecrypt_nil]
  | succ n ih =>
    intro pt prev hlen
    by_cases hpt : pt = []
    · subst hpt
      rw [cfbEncrypt_nil, cfbDecrypt_nil]
    · have hpos : 0 < pt.length := List.length_pos.mpr hpt
      have hks : (E prev).length = 16 := hE prev
      rw [cfbEncrypt, dif_neg hpt]
      set c := zipXor (E prev) (pt.take 16) with hc
      have hclen : c.length = min 16 pt.length := by
        rw [hc, zipXor_length, hks, List.length_take]
        omega
      have hcne : c ≠ [] := by
        intro hnil
        rw [hnil] at hclen
        simp at hclen
        omega
      by_cases h16 : pt.length ≤ 16
      · have htake : pt.take 16 = pt := List.take_of_length_le h16
        have hdrop : pt.drop 16 = [] := List.drop_eq_nil_of_le h16
        rw [hdrop, cfbEncrypt_nil, List.append_nil]
        rw [cfbDecrypt, dif_neg hcne]
        have hc16 : c.take 16 = c := List.take_of_length_le (by omega)
        have hcd : c.drop 16 = [] := List.drop_eq_nil_of_le (by omega)
        rw [hc16, hcd, cfbDecrypt_nil, List.append_nil, hc, htake,
          zipXor_zipXor _ _ (by omega)]
      · have hc16 : c.length = 16 := by omega
        set enc := cfbEncrypt E c (pt.drop 16) with henc
        have hne : c ++ enc ≠ [] := by
          intro hnil
          have := congrArg List.length hnil
          simp [hc16] at this
        rw [cfbDecrypt, dif_neg hne]
        have htake : (c ++ enc).take 16 = c := by
          rw [show (16 : Nat) = c.length from hc16.symm, List.take_left]
        have hdrop : (c ++ enc).drop 16 = enc := by
          rw [show (16 : Nat) = c.length from hc16.symm, List.drop_left]
        rw [htake, hdrop]
        have hrec : cfbDecrypt E c enc = pt.drop 16 := by
          rw [henc]
          refine ih (pt.drop 16) c ?_
          simp only [List.length_drop]
          omega
        rw [hrec, hc, zipXor_zipXor _ _ (by rw [hks, List.length_take]; omega)]
        exact List.take_append_drop 16 pt

theorem cfb_roundtrip (E : Bytes → Bytes) (hE : ∀ x, (E x).length = 16)
    (prev pt : Bytes) : cfbDecrypt E prev (cfbEncrypt E prev pt) = pt :=
  cfb_roundtrip_aux E hE pt.length pt prev le_rfl

/-! ### Lemmas: the encryption layer -/

theorem take16_count_append (c : Count) (b : Bytes) :
    (c.to_bytes ++ b).take 16 = c.to_bytes := by
  rw [show (16 : Nat) = c.to_bytes.length from (count_to_bytes_length c).symm,
    List.take_left]

theorem drop16_count_append (c : Count) (b : Bytes) :
    (c.to_bytes ++ b).drop 16 = b := by
  rw [show (16 : Nat) = c.to_bytes.length from (count_to_bytes_length c).symm,
    List.drop_left]

/-- Every successful `EncIntKv::write` stores `count ‖ AES-CFB(payload)`
below, for some in-range `Count`, leaving the key unchanged. -/
theorem enc_write_ok_shape (ctx : EncCtx) (s : EncIntKv) (index : Nat) (b : Bytes)
    (h : (EncIntKv.write ctx s index b).1 = .ok ()) :
    ∃ c : Count, c.c1 < 2 ^ 64 ∧ c.c2 < 2 ^ 64 ∧
      (EncIntKv.write ctx s index b).2.key = s.key ∧
      (EncIntKv.write ctx s index b).2.kv =
        insertK index
          (c.to_bytes ++ cfbEncrypt (ctx.aes s.key) (EncIntKv.iv ctx s.key index c) b)
          s.kv := by
  by_cases hhas : MemIntKv.has s.kv index
  · cases hread : MemIntKv.read s.kv index with
    | error e =>
      rw [EncIntKv.write] at h
      simp only [hhas, if_true, hread] at h
      simp at h
    | ok old =>
      cases hcount : Count.read_from old with
      | error e =>
        rw [EncIntKv.write] at h
        simp only [hhas, if_true, hread, hcount] at h
        simp at h
      | ok c =>
        refine ⟨(c.bump s.rng).1, ?_, ?_, ?_, ?_⟩
        · exact u64_lt _
        · exact u64_lt _
        · rw [EncIntKv.write]
          simp only [hhas, if_true, hread, hcount]
        · rw [EncIntKv.write]
          simp only [hhas, if_true, hread, hcount, MemIntKv.write,
            take16_count_append, drop16_count_append]
  · refine ⟨(Count.new_random s.rng).1, ?_, ?_, ?_, ?_⟩
    · exact u64_lt _
    · exact u64_lt _
    · rw [EncIntKv.write]
      simp [hhas]
    · rw [EncIntKv.write]
      simp [hhas, MemIntKv.write, take16_count_append, drop16_count_append]

/-- Reading back a successful `EncIntKv::write` recovers the payload. -/
theorem enc_read_after_write (ctx : EncCtx) (s : EncIntKv) (index : Nat) (b : Bytes)
    (hE : ∀ x, (ctx.aes s.key x).length = 16)
    (h : (EncIntKv.write ctx s index b).1 = .ok ()) :
    EncIntKv.read ctx (EncIntKv.write ctx s index b).2 index = .ok b := by
  obtain ⟨c, h1, h2, hkey, hkv⟩ := enc_write_ok_shape ctx s index b h
  rw [EncIntKv.read]
  simp only [MemIntKv.read, hkv, lookupK_insertK_self,
    count_read_from_to_bytes c _ h1 h2, drop16_count_append, hkey]
  rw [cfb_roundtrip (ctx.aes s.key) hE]

theorem stored_count_c2 (c : Count) (t : Bytes) :
    ((c.to_bytes ++ t).drop 8).take 8 = be64 c.c2 := by
  rw [Count.to_bytes, List.append_assoc,
    show (8 : Nat) = (be64 c.c1).length from (be64_length _).symm, List.drop_left,
    show (be64 c.c1).length = (be64 c.c2).length by rw [be64_length, be64_length],
    List.take_left]

/-! ### Claim theorems -/

/-- C3: for every index `i` and payload `b`, the encryption layer's
`write(i, b)` stores below exactly a 16-byte `Count` header followed by the
AES-256-CFB encryption of `b`: when `i` already exists below, the new count
is `(c1 + (next_u64() | 1), c2 + 1)` (wrapping mod `2^64`) computed from the
prior ciphertext's parsed header; when `i` is new, it is two fresh random
64-bit words; and the IV is the first 16 bytes of
`Blake2s(master_key ‖ count_bytes ‖ big_endian(i))`. -/
theorem C3_enc_write_layout (ctx : EncCtx) (s : EncIntKv) (index : Nat) (b : Bytes) :
    (∀ old c, lookupK s.kv index = some old → Count.read_from old = .ok c →
      (EncIntKv.write ctx s index b).1 = .ok () ∧
      lookupK (EncIntKv.write ctx s index b).2.kv index =
        some ((be64 (u64 (c.c1 + (u64 (s.rng.stream s.rng.pos) ||| 1))) ++
               be64 (u64 (c.c2 + 1))) ++
              cfbEncrypt (ctx.aes s.key)
                ((ctx.blake (s.key ++
                    (be64 (u64 (c.c1 + (u64 (s.rng.stream s.rng.pos) ||| 1))) ++
                     be64 (u64 (c.c2 + 1))) ++ be64 index)).take 16) b)) ∧
    (lookupK s.kv index = none →
      (EncIntKv.write ctx s index b).1 = .ok () ∧
      lookupK (EncIntKv.write ctx s index b).2.kv index =
        some ((be64 (u64 (s.rng.stream s.rng.pos)) ++
               be64 (u64 (s.rng.stream (s.rng.pos + 1)))) ++
              cfbEncrypt (ctx.aes s.key)
                ((ctx.blake (s.key ++
                    (be64 (u64 (s.rng.stream s.rng.pos)) ++
                     be64 (u64 (s.rng.stream (s.rng.pos + 1)))) ++ be64 index)).take 16)
                b)) := by
  constructor
  · intro old c hold hc
    have hhas : MemIntKv.has s.kv index = true := by
      simp [MemIntKv.has, containsK, hold]
    have hread : MemIntKv.read s.kv index = .ok old := by
      simp [MemIntKv.read, hold]
    constructor
    · rw [EncIntKv.write]
      simp only [hhas, if_true, hread, hc]
    · rw [EncIntKv.write]
      simp only [hhas, if_true, hread, hc, MemIntKv.write,
        take16_count_append, drop16_count_append]
      rw [lookupK_insertK_self]
      simp only [Count.bump, Rng.nextU64, Count.to_bytes, EncIntKv.iv]
  · intro hnone
    have hhas : MemIntKv.has s.kv index = false := by
      simp [MemIntKv.has, containsK, hnone]
    constructor
    · rw [EncIntKv.write]
      simp [hhas]
    · rw [EncIntKv.write]
      simp only [hhas, Bool.false_eq_true, if_false, MemIntKv.write,
        take16_count_append, drop16_count_append]
      rw [lookupK_insertK_self]
      simp only [Count.new_random, Rng.nextU64, Count.to_bytes, EncIntKv.iv]

/-- C3 witness. -/
theorem C3_enc_write_layout_witness :
    (EncIntKv.write ⟨fun _ _ => List.replicate 16 0, fun _ => List.replicate 32 1⟩
        ⟨[], ⟨fun _ => 7, 0⟩, []⟩ 42 [1, 2]).1 = .ok () ∧
    lookupK (EncIntKv.write ⟨fun _ _ => List.replicate 16 0, fun _ => List.replicate 32 1⟩
        ⟨[], ⟨fun _ => 7, 0⟩, []⟩ 42 [1, 2]).2.kv 42 =
      some ((be64 (u64 7) ++ be64 (u64 7)) ++
            cfbEncrypt (fun _ => List.replicate 16 0)
              ((List.replicate 32 1).take 16) [1, 2]) := by
  have h := (C3_enc_write_layout
    ⟨fun _ _ => List.replicate 16 0, fun _ => List.replicate 32 1⟩
    ⟨[], ⟨fun _ => 7, 0⟩, []⟩ 42 [1, 2]).2 rfl
  exact h

/-- C4: two successive `EncIntKv::write(i, b)` (no intervening remove)
store two distinct byte strings in the layer below, and a `read(i)` after
each write returns `b`. -/
theorem C4_enc_double_write (ctx : EncCtx) (s : EncIntKv) (index : Nat) (b : Bytes)
    (hE : ∀ x, (ctx.aes s.key x).length = 16)
    (h1 : (EncIntKv.write ctx s index b).1 = .ok ()) :
    (EncIntKv.write ctx (EncIntKv.write ctx s index b).2 index b).1 = .ok () ∧
    lookupK (EncIntKv.write ctx (EncIntKv.write ctx s index b).2 index b).2.kv index ≠
      lookupK (EncIntKv.write ctx s index b).2.kv index ∧
    EncIntKv.read ctx (EncIntKv.write ctx s index b).2 index = .ok b ∧
    EncIntKv.read ctx (EncIntKv.write ctx (EncIntKv.write ctx s index b).2 index b).2
      index = .ok b := by
  obtain ⟨c, hc1, hc2, hkey, hkv⟩ := enc_write_ok_shape ctx s index b h1
  set s1 := (EncIntKv.write ctx s index b).2 with hs1
  set ct1 := cfbEncrypt (ctx.aes s.key) (EncIntKv.iv ctx s.key index c) b with hct1
  have hlook : lookupK s1.kv index = some (c.to_bytes ++ ct1) := by
    rw [hkv]
    exact lookupK_insertK_self _ _ _
  have hhas2 : MemIntKv.has s1.kv index = true := by
    simp [MemIntKv.has, containsK, hlook]
  have hread2 : MemIntKv.read s1.kv index = .ok (c.to_bytes ++ ct1) := by
    simp [MemIntKv.read, hlook]
  have hcount2 : Count.read_from (c.to_bytes ++ ct1) = .ok c :=
    count_read_from_to_bytes c _ hc1 hc2
  have h2 : (EncIntKv.write ctx s1 index b).1 = .ok () := by
    rw [EncIntKv.write]
    simp only [hhas2, if_true, hread2, hcount2]
  have hkv2 : (EncIntKv.write ctx s1 index b).2.kv =
      insertK index ((c.bump s1.rng).1.to_bytes ++
        cfbEncrypt (ctx.aes s1.key)
          (EncIntKv.iv ctx s1.key index (c.bump s1.rng).1) b) s1.kv := by
    rw [EncIntKv.write]
    simp only [hhas2, if_true, hread2, hcount2, MemIntKv.write,
      take16_count_append, drop16_count_append]
  refine ⟨h2, ?_, enc_read_after_write ctx s index b hE h1, ?_⟩
  · intro heq
    rw [hkv2, lookupK_insertK_self, hlook] at heq
    have hbytes := Option.some.inj heq
    have hc2eq := congrArg (fun l : Bytes => (l.drop 8).take 8) hbytes
    simp only [stored_count_c2] at hc2eq
    have : (c.bump s1.rng).1.c2 = c.c2 := by
      have := congrArg beNat hc2eq
      rwa [beNat_be64 (by simp [Count.bump, Rng.nextU64]; exact u64_lt _),
        beNat_be64 hc2] at this
    have hb : (c.bump s1.rng).1.c2 = u64 (c.c2 + 1) := by
      simp [Count.bump, Rng.nextU64]
    rw [hb] at this
    exact u64_succ_ne hc2 this
  · have hE' : ∀ x, (ctx.aes s1.key x).length = 16 := by
      rw [show s1.key = s.key from hkey]
      exact hE
    exact enc_read_after_write ctx s1 index b hE' h2

/-- C4 witness. -/
theorem C4_enc_double_write_witness :
    (∀ x, ((fun (_ _ : Bytes) => List.replicate 16 0) ([] : Bytes) x).length = 16) ∧
    (EncIntKv.write ⟨fun _ _ => List.replicate 16 0, fun _ => List.replicate 32 1⟩
      ⟨[], ⟨fun _ => 7, 0⟩, []⟩ 42 [9, 9]).1 = .ok () ∧
    EncIntKv.read ⟨fun _ _ => List.replicate 16 0, fun _ => List.replicate 32 1⟩
      (EncIntKv.write ⟨fun _ _ => List.replicate 16 0, fun _ => List.replicate 32 1⟩
        ⟨[], ⟨fun _ => 7, 0⟩, []⟩ 42 [9, 9]).2 42 = .ok [9, 9] := by
  refine ⟨fun x => by simp, rfl, ?_⟩
  exact (C4_enc_double_write
    ⟨fun _ _ => List.replicate 16 0, fun _ => List.replicate 32 1⟩
    ⟨[], ⟨fun _ => 7, 0⟩, []⟩ 42 [9, 9] (fun x => by simp) rfl).2.2.1

/-- C7 counterexample: the buffering layer's eviction check compares the
cache byte size *before* adding the loaded value against the limit, and the
eviction is `cache.clear()`, dropping `Present` entries as well.  First
scenario: limit 5, prior size 3, loaded value of size 4 — the size after
accounting is 7 > 5, yet the old `Data` entry at index 7 survives.  Second
scenario: limit 2, prior size 3 — eviction fires and the `Present(true)`
entry at index 9 is dropped, contradicting the claim that `Present` entries
are retained. -/
theorem C7_buffered_eviction_counterexample :
    (BufferedIntKv.read ⟨[(7, .data [1, 2, 3])], 5, 3, [], [(3, [4, 4, 4, 4])]⟩ 3).1 =
      .ok [4, 4, 4, 4] ∧
    3 + 4 > 5 ∧
    lookupK (BufferedIntKv.read
        ⟨[(7, .data [1, 2, 3])], 5, 3, [], [(3, [4, 4, 4, 4])]⟩ 3).2.cache 7 =
      some (.data [1, 2, 3]) ∧
    lookupK (BufferedIntKv.read
        ⟨[(7, .data [1, 2, 3]), (9, .has true)], 2, 3, [], [(3, [4, 4, 4, 4])]⟩ 3).2.cache 9 =
      none := by
  decide

/-- C7 (amended): in the buffering layer's read, when a value of size `s`
is loaded from the lower layer, the whole cache (`Data` and `Present`
entries alike) is dropped exactly when the limit is nonzero and the cache
byte size *before* adding `s` exceeds it, after which the just-read value
is the sole cache entry and the size counter equals `s`; otherwise no
eviction occurs, the value is added to the cache and the size grows by
`s`. -/
theorem C7_buffered_read_eviction (s : BufferedIntKv) (index : Nat) (b : Bytes)
    (hch : lookupK s.changes index = none)
    (hca : lookupK s.cache index = none)
    (hlow : MemIntKv.read s.kv index = .ok b) :
    (BufferedIntKv.read s index).1 = .ok b ∧
    ((0 < s.cache_size_limit ∧ s.cache_size_limit < s.cache_size) →
      (BufferedIntKv.read s index).2 =
        { s with cache_size := b.length, cache := [(index, .data b)] }) ∧
    (¬(0 < s.cache_size_limit ∧ s.cache_size_limit < s.cache_size) →
      (BufferedIntKv.read s index).2 =
        { s with cache_size := s.cache_size + b.length,
                 cache := insertK index (.data b) s.cache }) := by
  rw [BufferedIntKv.read] at *
  simp only [hch, hca, hlow]
  by_cases hcond : 0 < s.cache_size_limit ∧ s.cache_size_limit < s.cache_size
  · rw [if_pos hcond]
    refine ⟨rfl, fun _ => ?_, fun hn => absurd hcond hn⟩
    simp [insertK, Nat.add_sub_cancel_left]
  · rw [if_neg hcond]
    exact ⟨rfl, fun hp => absurd hp hcond, fun _ => rfl⟩

/-- C7 witness (eviction branch). -/
theorem C7_buffered_read_eviction_witness :
    (BufferedIntKv.read
        ⟨[(7, .data [1, 2, 3]), (9, .has true)], 2, 3, [], [(3, [4, 4, 4, 4])]⟩ 3).1 =
      .ok [4, 4, 4, 4] ∧
    (BufferedIntKv.read
        ⟨[(7, .data [1, 2, 3]), (9, .has true)], 2, 3, [], [(3, [4, 4, 4, 4])]⟩ 3).2 =
      { cache := [(3, .data [4, 4, 4, 4])], cache_size_limit := 2, cache_size := 4,
        changes := [], kv := [(3, [4, 4, 4, 4])] } := by
  have h := C7_buffered_read_eviction
    ⟨[(7, .data [1, 2, 3]), (9, .has true)], 2, 3, [], [(3, [4, 4, 4, 4])]⟩ 3 [4, 4, 4, 4]
    (by decide) (by decide) (by decide)
  exact ⟨h.1, h.2.1 (by decide)⟩

/-- Walking a well-formed, 0-terminated stored chain collects its indices
in order and folds its maps left to right. -/
theorem load_go_chain_terminates (kv : MemIntKv) :
    ∀ (rest : List MetaRec) (e : MetaRec) (pages : List Nat)
      (mi ds : Kmap Nat Nat) (fuel : Nat) (elast : MetaRec),
      ChainOk kv (e :: rest) →
      (∀ x ∈ e :: rest, x.idx ∉ pages) →
      ((e :: rest).map MetaRec.idx).Nodup →
      (e :: rest).length ≤ fuel →
      (e :: rest).getLast? = some elast →
      elast.next = 0 →
      load_metadata_go kv fuel pages mi ds e.idx =
        .ok (pages ++ (e :: rest).map MetaRec.idx,
             (e :: rest).foldl (fun acc x => appendK acc x.mi) mi,
             (e :: rest).foldl (fun acc x => appendK acc x.ds) ds) := by
  intro rest
  induction rest with
  | nil =>
    intro e pages mi ds fuel elast hchain hfresh hnodup hfuel hlast hterm
    obtain ⟨⟨bytes, hb, hp⟩, -, -⟩ := hchain
    cases fuel with
    | zero => simp at hfuel
    | succ f =>
      rw [load_metadata_go, if_neg (hfresh e (List.mem_cons_self _ _))]
      simp only [MemIntKv.read, hb, hp]
      have helast : e = elast := by simpa using hlast
      subst helast
      simp [hterm]
  | cons e2 rest' ih =>
    intro e pages mi ds fuel elast hchain hfresh hnodup hfuel hlast hterm
    obtain ⟨⟨bytes, hb, hp⟩, hlink, hchain'⟩ := hchain
    obtain ⟨hnext, hnz⟩ := hlink
    cases fuel with
    | zero => simp at hfuel
    | succ f =>
      rw [load_metadata_go, if_neg (hfresh e (List.mem_cons_self _ _))]
      simp only [MemIntKv.read, hb, hp]
      rw [hnext, if_neg hnz]
      have hfresh' : ∀ x ∈ e2 :: rest', x.idx ∉ pages ++ [e.idx] := by
        intro x hx
        rw [List.mem_append, List.mem_singleton]
        rintro (hmem | heq)
        · exact hfresh x (List.mem_cons_of_mem _ hx) hmem
        · have : x.idx ∈ (e2 :: rest').map MetaRec.idx := List.mem_map_of_mem _ hx
          rw [heq] at this
          exact (List.nodup_cons.mp hnodup).1 this
      have hrec := ih e2 (pages ++ [e.idx]) (appendK mi e.mi) (appendK ds e.ds) f elast
        hchain' hfresh' (List.nodup_cons.mp hnodup).2 (by simpa using hfuel)
        (by simpa using hlast) hterm
      rw [hrec]
      simp [List.append_assoc]

/-- Walking a well-formed stored chain whose last record points back into
the already-visited indices fails with `InvalidData`. -/
theorem load_go_chain_cycles (kv : MemIntKv) :
    ∀ (rest : List MetaRec) (e : MetaRec) (pages : List Nat)
      (mi ds : Kmap Nat Nat) (fuel : Nat) (elast : MetaRec),
      ChainOk kv (e :: rest) →
      (∀ x ∈ e :: rest, x.idx ∉ pages) →
      ((e :: rest).map MetaRec.idx).Nodup →
      (e :: rest).length + 1 ≤ fuel →
      (e :: rest).getLast? = some elast →
      elast.next ≠ 0 →
      elast.next ∈ pages ++ (e :: rest).map MetaRec.idx →
      load_metadata_go kv fuel pages mi ds e.idx = .error .invalidData := by
  intro rest
  induction rest with
  | nil =>
    intro e pages mi ds fuel elast hchain hfresh hnodup hfuel hlast hnz hmem
    obtain ⟨⟨bytes, hb, hp⟩, -, -⟩ := hchain
    have helast : e = elast := by simpa using hlast
    subst helast
    match fuel, hfuel with
    | f + 2, _ =>
      rw [load_metadata_go, if_neg (hfresh e (List.mem_cons_self _ _))]
      simp only [MemIntKv.read, hb, hp]
      rw [if_neg hnz]
      rw [load_metadata_go]
      rw [if_pos (by simpa using hmem)]
  | cons e2 rest' ih =>
    intro e pages mi ds fuel elast hchain hfresh hnodup hfuel hlast hnz hmem
    obtain ⟨⟨bytes, hb, hp⟩, hlink, hchain'⟩ := hchain
    obtain ⟨hnext, hnz2⟩ := hlink
    cases fuel with
    | zero => simp at hfuel
    | succ f =>
      rw [load_metadata_go, if_neg (hfresh e (List.mem_cons_self _ _))]
      simp only [MemIntKv.read, hb, hp]
      rw [hnext, if_neg hnz2]
      have hfresh' : ∀ x ∈ e2 :: rest', x.idx ∉ pages ++ [e.idx] := by
        intro x hx
        rw [List.mem_append, List.mem_singleton]
        rintro (hmem' | heq)
        · exact hfresh x (List.mem_cons_of_mem _ hx) hmem'
        · have : x.idx ∈ (e2 :: rest').map MetaRec.idx := List.mem_map_of_mem _ hx
          rw [heq] at this
          exact (List.nodup_cons.mp hnodup).1 this
      refine ih e2 (pages ++ [e.idx]) (appendK mi e.mi) (appendK ds e.ds) f elast
        hchain' hfresh' (List.nodup_cons.mp hnodup).2 (by simpa using hfuel)
        (by simpa using hlast) hnz ?_
      simpa [List.append_assoc] using hmem

/-- C9: constructing the paging layer over a lower store whose meta-page
linked list, starting at physical index 0, revisits an already-seen page
index fails with `InvalidData`; on a cycle-free 0-terminated list it unions
every meta page's `map_index` and data-page-size maps into the in-memory
global maps (later pages overriding) and records the ordered meta-page
index sequence; and on a fresh store (index 0 absent) it starts empty. -/
theorem C9_page_new_load_metadata (P : Nat) (kv : MemIntKv) (rng : Rng) (fuel : Nat) :
    (lookupK kv 0 = none →
      PageIntKv.new P kv rng fuel = .ok ⟨P, [], [], [], [], kv, rng⟩) ∧
    (∀ (l : List MetaRec) (e : MetaRec) (rest : List MetaRec) (elast : MetaRec),
      l = e :: rest → e.idx = 0 → ChainOk kv l →
      (l.map MetaRec.idx).Nodup → l.length ≤ fuel →
      l.getLast? = some elast → elast.next = 0 →
      PageIntKv.new P kv rng fuel =
        .ok ⟨P, l.map MetaRec.idx,
             l.foldl (fun acc x => appendK acc x.ds) [],
             [],
             l.foldl (fun acc x => appendK acc x.mi) [],
             kv, rng⟩) ∧
    (∀ (l : List MetaRec) (e : MetaRec) (rest : List MetaRec) (elast : MetaRec),
      l = e :: rest → e.idx = 0 → ChainOk kv l →
      (l.map MetaRec.idx).Nodup → l.length + 1 ≤ fuel →
      l.getLast? = some elast → elast.next ≠ 0 → elast.next ∈ l.map MetaRec.idx →
      PageIntKv.new P kv rng fuel = .error .invalidData) := by
  refine ⟨?_, ?_, ?_⟩
  · intro h0
    rw [PageIntKv.new, load_metadata]
    have : MemIntKv.has kv 0 = false := by simp [MemIntKv.has, containsK, h0]
    rw [this]
    simp
  · intro l e rest elast hl hidx hchain hnodup hfuel hlast hterm
    subst hl
    have hhas : MemIntKv.has kv 0 = true := by
      obtain ⟨⟨bytes, hb, -⟩, -, -⟩ := hchain
      rw [hidx] at hb
      simp [MemIntKv.has, containsK, hb]
    rw [PageIntKv.new, load_metadata, hhas]
    simp only [if_true]
    rw [← hidx,
      load_go_chain_terminates kv rest e [] [] [] fuel elast hchain
        (by simp) hnodup hfuel hlast hterm]
    rfl
  · intro l e rest elast hl hidx hchain hnodup hfuel hlast hnz hmem
    subst hl
    have hhas : MemIntKv.has kv 0 = true := by
      obtain ⟨⟨bytes, hb, -⟩, -, -⟩ := hchain
      rw [hidx] at hb
      simp [MemIntKv.has, containsK, hb]
    rw [PageIntKv.new, load_metadata, hhas]
    simp only [if_true]
    rw [← hidx,
      load_go_chain_cycles kv rest e [] [] [] fuel elast hchain
        (by simp) hnodup hfuel hlast hnz (by simpa using hmem)]

/-- C9 witness: a fresh store, a two-page chain `0 → 7 → end`, and a cyclic
chain `0 → 7 → 7`. -/
theorem C9_page_new_load_metadata_witness :
    PageIntKv.new 64 [] ⟨fun _ => 0, 0⟩ 5 =
      .ok ⟨64, [], [], [], [], [], ⟨fun _ => 0, 0⟩⟩ ∧
    PageIntKv.new 64
      [(0, serializeMetaPage ⟨7, [(100, 200)], [(200, 35)], 0⟩),
       (7, serializeMetaPage ⟨0, [(101, 201)], [(201, 36)], 0⟩)] ⟨fun _ => 0, 0⟩ 5 =
      .ok ⟨64, [0, 7], [(200, 35), (201, 36)], [], [(100, 200), (101, 201)],
           [(0, serializeMetaPage ⟨7, [(100, 200)], [(200, 35)], 0⟩),
            (7, serializeMetaPage ⟨0, [(101, 201)], [(201, 36)], 0⟩)],
           ⟨fun _ => 0, 0⟩⟩ ∧
    PageIntKv.new 64
      [(0, serializeMetaPage ⟨7, [(100, 200)], [(200, 35)], 0⟩),
       (7, serializeMetaPage ⟨7, [(101, 201)], [(201, 36)], 0⟩)] ⟨fun _ => 0, 0⟩ 5 =
      .error .invalidData := by
  refine ⟨(C9_page_new_load_metadata 64 [] ⟨fun _ => 0, 0⟩ 5).1 rfl, ?_, ?_⟩
  · have h := (C9_page_new_load_metadata 64
      [(0, serializeMetaPage ⟨7, [(100, 200)], [(200, 35)], 0⟩),
       (7, serializeMetaPage ⟨0, [(101, 201)], [(201, 36)], 0⟩)] ⟨fun _ => 0, 0⟩ 5).2.1
      [⟨0, 7, [(100, 200)], [(200, 35)]⟩, ⟨7, 0, [(101, 201)], [(201, 36)]⟩]
      ⟨0, 7, [(100, 200)], [(200, 35)]⟩ [⟨7, 0, [(101, 201)], [(201, 36)]⟩]
      ⟨7, 0, [(101, 201)], [(201, 36)]⟩ rfl rfl
      ⟨⟨_, rfl, by decide⟩, ⟨rfl, by decide⟩, ⟨_, rfl, by decide⟩, trivial, trivial⟩
      (by decide) (by decide) (by decide) (by decide)
    rw [h]
    rfl
  · exact (C9_page_new_load_metadata 64
      [(0, serializeMetaPage ⟨7, [(100, 200)], [(200, 35)], 0⟩),
       (7, serializeMetaPage ⟨7, [(101, 201)], [(201, 36)], 0⟩)] ⟨fun _ => 0, 0⟩ 5).2.2
      [⟨0, 7, [(100, 200)], [(200, 35)]⟩, ⟨7, 7, [(101, 201)], [(201, 36)]⟩]
      ⟨0, 7, [(100, 200)], [(200, 35)]⟩ [⟨7, 7, [(101, 201)], [(201, 36)]⟩]
      ⟨7, 7, [(101, 201)], [(201, 36)]⟩ rfl rfl
      ⟨⟨_, rfl, by decide⟩, ⟨rfl, by decide⟩, ⟨_, rfl, by decide⟩, trivial, trivial⟩
      (by decide) (by decide) (by decide) (by decide) (by decide)

/-- C1 (violated by the code at the paging layer): with page size 64 and an
RNG whose `u32` draws are 10, 20, 10, 30, `write(5, b)` of the 100-byte
value `b = [0, …, 99]` returns `Ok` but the immediately following
`read(5)` returns only `b[64..]`.  `find_free_page_index` — whose doc
comment says "Find an unused page index" — checks `self.has`, i.e. the
*logical* `map_index`, instead of physical page usage, so the third
allocation hands out physical page 10 again even though it is the first
page of the chain being written; the first chunk is overwritten by a fresh
empty page and the write then re-threads the chain through it, losing
`b[0..64]`.  The debug-build `verify()` rejects the resulting state at the
next flush, so the code contradicts its own integrity check. -/
theorem C1_page_write_read_mismatch :
    (PageIntKv.write
        ⟨64, [], [], [], [], [], ⟨fun n => [10, 20, 10, 30].getD n 0, 0⟩⟩
        5 (List.range 100) 10 10).1 = .ok () ∧
    PageIntKv.read
      (PageIntKv.write
        ⟨64, [], [], [], [], [], ⟨fun n => [10, 20, 10, 30].getD n 0, 0⟩⟩
        5 (List.range 100) 10 10).2 5 10 = .ok ((List.range 100).drop 64) ∧
    (List.range 100).drop 64 ≠ List.range 100 := by
  refine ⟨by decide, by decide, by decide⟩

/-- C2 (violated by the code): with page size 64 and an RNG that returns 0,
`write(5, [97, 98, 99])` allocates physical index 0 for the fresh data page
(the allocator checks the logical `map_index` and never excludes the
reserved meta-page index 0), and the following `flush` succeeds: it first
writes the data page at 0, then writes the single meta page over it at its
fixed index 0.  Afterwards `data_page_sizes` records serialized size 35 for
data page 0, but the persisted 64-byte block at 0 is the meta page, which
parses as a data page of serialized size 8 — the recorded size does not
equal the serialized size of the persisted page, violating the flush
invariant that the debug-build `verify()` (run at the end of `flush`)
checks. -/
theorem C2_flush_size_record_mismatch :
    (PageIntKv.write ⟨64, [], [], [], [], [], ⟨fun _ => 0, 0⟩⟩
        5 [97, 98, 99] 10 10).1 = .ok () ∧
    ((PageIntKv.flush
        (PageIntKv.write ⟨64, [], [], [], [], [], ⟨fun _ => 0, 0⟩⟩
          5 [97, 98, 99] 10 10).2 10 10).toOption.map
      (fun st =>
        (st.data_page_sizes, st.meta_pages,
         (lookupK st.kv 0).map List.length,
         ((lookupK st.kv 0).bind parseDataPage).map
           (fun ch => bincode_size_data ⟨ch, 0⟩)))) =
      some ([(0, 35)], [0], some 64, some 8) ∧
    (35 : Nat) ≠ 8 := by
  refine ⟨by decide, by decide, by decide⟩

/-- Memoizing a consistent `Has(false)` entry in the buffering layer's
cache does not change the result of any subsequent read or exists. -/
theorem buffered_obs_insert_has_false (s : BufferedIntKv) (i : Nat)
    (hch : lookupK s.changes i = none) (hca : lookupK s.cache i = none)
    (hlow : MemIntKv.has s.kv i = false) (j : Nat) :
    (BufferedIntKv.read { s with cache := insertK i (.has false) s.cache } j).1 =
      (BufferedIntKv.read s j).1 ∧
    (BufferedIntKv.has { s with cache := insertK i (.has false) s.cache } j).1 =
      (BufferedIntKv.has s j).1 := by
  have hlookn : lookupK s.kv i = none := by
    simp only [MemIntKv.has, containsK] at hlow
    exact Option.not_isSome_iff_eq_none.mp (by simp [hlow])
  have hlowr : MemIntKv.read s.kv i = .error .notFound := by
    simp [MemIntKv.read, hlookn]
  by_cases hji : j = i
  · subst hji
    constructor
    · rw [BufferedIntKv.read, BufferedIntKv.read]
      simp [hch, hca, lookupK_insertK_self, hlowr]
    · rw [BufferedIntKv.has, BufferedIntKv.has]
      simp [hch, hca, lookupK_insertK_self, hlow]
  · have hne : lookupK (insertK i (CacheState.has false) s.cache) j = lookupK s.cache j :=
      lookupK_insertK_ne _ _ hji
    constructor
    · rw [BufferedIntKv.read, BufferedIntKv.read]
      cases hc : lookupK s.changes j with
      | some v => cases v <;> simp [hc]
      | none =>
        simp only [hc, hne]
        cases hcc : lookupK s.cache j with
        | some cs =>
          cases cs with
          | data b => simp
          | has bb =>
            cases bb
            · simp
            · cases hr : MemIntKv.read s.kv j <;> simp [hr]
        | none =>
          cases hr : MemIntKv.read s.kv j with
          | error e => by_cases he : e = Err.notFound <;> simp [hr, he]
          | ok b =>
            simp only [hr]
            split <;> rfl
    · rw [BufferedIntKv.has, BufferedIntKv.has]
      cases hc : lookupK s.changes j with
      | some v => cases v <;> simp [hc]
      | none =>
        simp only [hc, hne]
        cases hcc : lookupK s.cache j with
        | some cs => cases cs <;> simp
        | none => simp

/-- C8: at every layer, `remove(i)` with `exists(i) = false` fails with
`NotFound` and leaves the observable state unchanged — the in-memory
backend, the filesystem-backed, encryption and paging layers are returned
untouched, and the buffering layer (whose `exists` probe may memoize a
consistent negative cache entry) answers every subsequent read/exists on
any index exactly as before. -/
theorem C8_remove_missing_not_found :
    (∀ (m : MemIntKv) (i : Nat), MemIntKv.has m i = false →
      MemIntKv.remove m i = (.error .notFound, m)) ∧
    (∀ (s : FsIntKv) (i : Nat), FsIntKv.has s i = false →
      FsIntKv.remove s i = (.error .notFound, s)) ∧
    (∀ (s : EncIntKv) (i : Nat), EncIntKv.has s i = false →
      EncIntKv.remove s i = (.error .notFound, s)) ∧
    (∀ (s : PageIntKv) (i fuel rfuel : Nat), PageIntKv.has s i = false →
      PageIntKv.remove s i fuel rfuel = (.error .notFound, s)) ∧
    (∀ (s : BufferedIntKv) (i : Nat), (BufferedIntKv.has s i).1 = false →
      (BufferedIntKv.remove s i).1 = .error .notFound ∧
      (∀ j, (BufferedIntKv.read (BufferedIntKv.remove s i).2 j).1 =
        (BufferedIntKv.read s j).1) ∧
      (∀ j, (BufferedIntKv.has (BufferedIntKv.remove s i).2 j).1 =
        (BufferedIntKv.has s j).1)) := by
  refine ⟨?_, ?_, ?_, ?_, ?_⟩
  · intro m i h
    have hlookn : lookupK m i = none := by
      simp only [MemIntKv.has, containsK] at h
      exact Option.not_isSome_iff_eq_none.mp (by simp [h])
    rw [MemIntKv.remove]
    simp [hlookn]
  · intro s i h
    rw [FsIntKv.has] at h
    rw [FsIntKv.remove]
    cases ho : lookupK s.overlay i with
    | some st =>
      cases st with
      | modified => rw [ho] at h; simp at h
      | removed => simp
    | none =>
      rw [ho] at h
      have : FsIntKv.has s i = false := by rw [FsIntKv.has, ho]; exact h
      simp [this]
  · intro s i h
    rw [EncIntKv.has] at h
    have hlookn : lookupK s.kv i = none := by
      simp only [MemIntKv.has, containsK] at h
      exact Option.not_isSome_iff_eq_none.mp (by simp [h])
    rw [EncIntKv.remove, MemIntKv.remove]
    simp [hlookn]
  · intro s i fuel rfuel h
    have hlookn : lookupK s.map_index i = none := by
      simp only [PageIntKv.has, containsK] at h
      exact Option.not_isSome_iff_eq_none.mp (by simp [h])
    rw [PageIntKv.remove, PageIntKv.update_logical_data]
    simp [hlookn]
  · intro s i h
    rw [BufferedIntKv.has] at h
    cases hc : lookupK s.changes i with
    | some v =>
      cases v with
      | some b => rw [hc] at h; simp at h
      | none =>
        rw [hc] at h
        have hstate : BufferedIntKv.has s i = (false, s) := by
          rw [BufferedIntKv.has]
          simp [hc]
        have hrem : BufferedIntKv.remove s i = (.error .notFound, s) := by
          rw [BufferedIntKv.remove, hstate]
        exact ⟨by rw [hrem], fun j => by rw [hrem], fun j => by rw [hrem]⟩
    | none =>
      rw [hc] at h
      cases hcc : lookupK s.cache i with
      | some cs =>
        cases cs with
        | data b => rw [hcc] at h; simp at h
        | has bb =>
          rw [hcc] at h
          cases bb with
          | true => simp at h
          | false =>
            have hstate : BufferedIntKv.has s i = (false, s) := by
              rw [BufferedIntKv.has]
              simp [hc, hcc]
            have hrem : BufferedIntKv.remove s i = (.error .notFound, s) := by
              rw [BufferedIntKv.remove, hstate]
            exact ⟨by rw [hrem], fun j => by rw [hrem], fun j => by rw [hrem]⟩
      | none =>
        rw [hcc] at h
        have hmem : MemIntKv.has s.kv i = false := by
          by_cases hm : MemIntKv.has s.kv i
          · rw [hm] at h; simp at h
          · simpa using hm
        have hstate : (BufferedIntKv.has s i) =
            (false, { s with cache := insertK i (.has false) s.cache }) := by
          rw [BufferedIntKv.has]
          simp [hc, hcc, hmem]
        have hrem : BufferedIntKv.remove s i =
            (.error .notFound, { s with cache := insertK i (.has false) s.cache }) := by
          rw [BufferedIntKv.remove, hstate]
        refine ⟨by rw [hrem], fun j => ?_, fun j => ?_⟩
        · rw [hrem]
          exact (buffered_obs_insert_has_false s i hc hcc hmem j).1
        · rw [hrem]
          exact (buffered_obs_insert_has_false s i hc hcc hmem j).2

/-- C8 witness: concrete instances for every layer. -/
theorem C8_remove_missing_not_found_witness :
    MemIntKv.remove ([(1, [5])] : MemIntKv) 3 = (.error .notFound, [(1, [5])]) ∧
    FsIntKv.remove ⟨[(1, [5])], [], []⟩ 3 = (.error .notFound, ⟨[(1, [5])], [], []⟩) ∧
    PageIntKv.remove ⟨64, [], [], [], [], [], ⟨fun _ => 0, 0⟩⟩ 3 9 9 =
      (.error .notFound, ⟨64, [], [], [], [], [], ⟨fun _ => 0, 0⟩⟩) ∧
    (BufferedIntKv.remove ⟨[], 0, 0, [], [(1, [5])]⟩ 3).1 = .error .notFound := by
  refine ⟨?_, ?_, ?_, ?_⟩
  · exact C8_remove_missing_not_found.1 _ 3 (by decide)
  · exact C8_remove_missing_not_found.2.1 _ 3 (by decide)
  · exact C8_remove_missing_not_found.2.2.2.1 _ 3 9 9 (by decide)
  · exact (C8_remove_missing_not_found.2.2.2.2 _ 3 (by decide)).1

/-- C6 counterexample: on a store whose root holds directory `a`
containing files `b` and `c`, `mkd /a` and `rename /a/b /a/c` both fail
with `PermissionDenied` (the source's `denied!` macro), not with
`AlreadyExists` as claimed. -/
theorem C6_already_exists_counterexample :
    (IntKvFtpFs.mkd
        [(0, .tree [("a", (1, ⟨0, 0o040000, 0⟩))]),
         (1, .tree [("b", (2, ⟨1, 0o100644, 0⟩)), ("c", (3, ⟨1, 0o100644, 0⟩))])]
        ["a"] 0 9 ⟨fun _ => 0, 0⟩).1 = .error .permissionDenied ∧
    (IntKvFtpFs.mkd
        [(0, .tree [("a", (1, ⟨0, 0o040000, 0⟩))]),
         (1, .tree [("b", (2, ⟨1, 0o100644, 0⟩)), ("c", (3, ⟨1, 0o100644, 0⟩))])]
        ["a"] 0 9 ⟨fun _ => 0, 0⟩).1 ≠ .error .alreadyExists ∧
    (IntKvFtpFs.rename
        [(0, .tree [("a", (1, ⟨0, 0o040000, 0⟩))]),
         (1, .tree [("b", (2, ⟨1, 0o100644, 0⟩)), ("c", (3, ⟨1, 0o100644, 0⟩))])]
        ["a", "b"] ["a", "c"]).1 = .error .permissionDenied ∧
    (IntKvFtpFs.rename
        [(0, .tree [("a", (1, ⟨0, 0o040000, 0⟩))]),
         (1, .tree [("b", (2, ⟨1, 0o100644, 0⟩)), ("c", (3, ⟨1, 0o100644, 0⟩))])]
        ["a", "b"] ["a", "c"]).1 ≠ .error .alreadyExists := by
  refine ⟨rfl, ?_, rfl, ?_⟩ <;> decide

/-- C6 (amended): `mkd` on a name that already exists in its parent tree
and `rename` whose destination name already exists in the destination tree
fail with error kind `PermissionDenied` (the source's `denied!` macro, not
`AlreadyExists`), and in both failure cases no tree is modified. -/
theorem C6_exists_conflicts_denied (kv : FtpKv) (p q : List String)
    (now rfuel : Nat) (rng : Rng) :
    (∀ tree name e, read_tree_name_from_path kv p = .ok (tree, name) →
      lookupK tree.items name = some e →
      IntKvFtpFs.mkd kv p now rfuel rng = (.error .permissionDenied, kv, rng)) ∧
    (∀ ftree fname ttree tname e,
      read_tree_name_from_path kv p = .ok (ftree, fname) →
      read_tree_name_from_path kv q = .ok (ttree, tname) →
      lookupK ttree.items tname = some e →
      IntKvFtpFs.rename kv p q = (.error .permissionDenied, kv)) := by
  constructor
  · intro tree name e ht he
    rw [IntKvFtpFs.mkd]
    simp [ht, containsK, he]
  · intro ftree fname ttree tname e hf ht he
    rw [IntKvFtpFs.rename]
    simp [hf, ht, containsK, he]

/-- C6 witness. -/
theorem C6_exists_conflicts_denied_witness :
    IntKvFtpFs.mkd
      [(0, .tree [("a", (1, ⟨0, 0o040000, 0⟩))]),
       (1, .tree [("b", (2, ⟨1, 0o100644, 0⟩)), ("c", (3, ⟨1, 0o100644, 0⟩))])]
      ["a"] 0 9 ⟨fun _ => 0, 0⟩ =
      (.error .permissionDenied,
       [(0, .tree [("a", (1, ⟨0, 0o040000, 0⟩))]),
        (1, .tree [("b", (2, ⟨1, 0o100644, 0⟩)), ("c", (3, ⟨1, 0o100644, 0⟩))])],
       ⟨fun _ => 0, 0⟩) ∧
    IntKvFtpFs.rename
      [(0, .tree [("a", (1, ⟨0, 0o040000, 0⟩))]),
       (1, .tree [("b", (2, ⟨1, 0o100644, 0⟩)), ("c", (3, ⟨1, 0o100644, 0⟩))])]
      ["a", "b"] ["a", "c"] =
      (.error .permissionDenied,
       [(0, .tree [("a", (1, ⟨0, 0o040000, 0⟩))]),
        (1, .tree [("b", (2, ⟨1, 0o100644, 0⟩)), ("c", (3, ⟨1, 0o100644, 0⟩))])]) := by
  constructor
  · exact (C6_exists_conflicts_denied _ ["a"] ["a", "c"] 0 9 ⟨fun _ => 0, 0⟩).1
      ⟨[("a", (1, ⟨0, 0o040000, 0⟩))], 0⟩ "a" (1, ⟨0, 0o040000, 0⟩) (by decide) (by decide)
  · exact (C6_exists_conflicts_denied _ ["a", "b"] ["a", "c"] 0 9 ⟨fun _ => 0, 0⟩).2
      ⟨[("b", (2, ⟨1, 0o100644, 0⟩)), ("c", (3, ⟨1, 0o100644, 0⟩))], 1⟩ "b"
      ⟨[("b", (2, ⟨1, 0o100644, 0⟩)), ("c", (3, ⟨1, 0o100644, 0⟩))], 1⟩ "c"
      (3, ⟨1, 0o100644, 0⟩) (by decide) (by decide) (by decide)

/-- C10: for every path `p` resolving to an existing entry,
`rename(p, p)` fails — the destination-exists check (`denied!`, i.e.
`PermissionDenied`) fires before any tree is written — and the directory
tree is left completely unchanged. -/
theorem C10_rename_self (kv : FtpKv) (p : List String)
    (tree : Tree) (name : String) (e : Nat × Meta)
    (ht : read_tree_name_from_path kv p = .ok (tree, name))
    (he : lookupK tree.items name = some e) :
    IntKvFtpFs.rename kv p p = (.error .permissionDenied, kv) := by
  rw [IntKvFtpFs.rename]
  simp [ht, containsK, he]

/-! ### Lemmas: path resolution in the filesystem mapping -/

theorem read_tree_by_id_index (kv : FtpKv) (idx : Nat) (t : Tree)
    (h : read_tree_by_id kv idx = .ok t) : t.index = idx := by
  rw [read_tree_by_id] at h
  split at h
  · rename_i hc
    cases h
    exact hc.1.symm
  · split at h <;> cases h
    rfl

theorem read_tree_by_id_shape (kv : FtpKv) (idx : Nat) (t : Tree)
    (h : read_tree_by_id kv idx = .ok t) :
    lookupK kv t.index = some (.tree t.items) ∨
      (lookupK kv t.index = none ∧ t.items = []) := by
  have hidx := read_tree_by_id_index kv idx t h
  rw [read_tree_by_id] at h
  split at h
  · rename_i hc
    cases h
    right
    refine ⟨?_, rfl⟩
    have h2 := hc.2
    simp only [containsK] at h2
    exact Option.not_isSome_iff_eq_none.mp (by simp [h2])
  · split at h <;> cases h
    left
    rename_i heq
    simpa using heq

theorem read_tree_by_id_of_lookup (kv : FtpKv) (idx : Nat)
    (its : Kmap String (Nat × Meta)) (h : lookupK kv idx = some (.tree its)) :
    read_tree_by_id kv idx = .ok ⟨its, idx⟩ := by
  rw [read_tree_by_id]
  have : containsK kv idx = true := by simp [containsK, h]
  split
  · rename_i hc
    rw [hc.1] at this
    rw [this] at hc
    simp at hc
  · rw [h]

theorem read_tree_by_id_congr (kv kv' : FtpKv) (idx : Nat)
    (h : lookupK kv' idx = lookupK kv idx) :
    read_tree_by_id kv' idx = read_tree_by_id kv idx := by
  by_cases hidx : idx = 0
  · subst hidx
    rw [read_tree_by_id, read_tree_by_id, containsK, containsK, h]
  · rw [read_tree_by_id, read_tree_by_id, h]
    have hc : ¬(idx = 0 ∧ containsK kv' 0 = false) := fun hh => hidx hh.1
    have hc' : ¬(idx = 0 ∧ containsK kv 0 = false) := fun hh => hidx hh.1
    rw [if_neg hc, if_neg hc']

theorem read_tree_by_path_go_shape (kv : FtpKv) :
    ∀ (q : List String) (t res : Tree),
      read_tree_by_path_go kv t q = .ok res →
      res = t ∨ ∃ i, read_tree_by_id kv i = .ok res := by
  intro q
  induction q with
  | nil =>
    intro t res h
    rw [read_tree_by_path_go] at h
    cases h
    exact Or.inl rfl
  | cons name rest ih =>
    intro t res h
    rw [read_tree_by_path_go] at h
    cases hf : Tree.find t name with
    | error e => rw [hf] at h; cases h
    | ok p =>
      obtain ⟨index, meta⟩ := p
      simp only [hf] at h
      by_cases hd : meta.is_dir = true
      · simp only [hd, if_true] at h
        cases hr : read_tree_by_id kv index with
        | error e => simp [hr] at h
        | ok t1 =>
          simp only [hr] at h
          rcases ih t1 res h with heq | hex
          · exact Or.inr ⟨index, heq ▸ hr⟩
          · exact Or.inr hex
      · simp only [hd] at h
        simp at h

theorem read_tree_by_path_shape (kv : FtpKv) (p : List String) (res : Tree)
    (h : read_tree_by_path kv p = .ok res) :
    lookupK kv res.index = some (.tree res.items) ∨
      (lookupK kv res.index = none ∧ res.items = []) := by
  rw [read_tree_by_path] at h
  cases hr : read_tree_by_id kv 0 with
  | error e => simp [hr] at h
  | ok root =>
    simp only [hr] at h
    rcases read_tree_by_path_go_shape kv p root res h with heq | ⟨i, hi⟩
    · exact read_tree_by_id_shape kv 0 res (heq ▸ hr)
    · exact read_tree_by_id_shape kv i res hi

theorem tree_trace_go_of_go (kv : FtpKv) :
    ∀ (q : List String) (t res : Tree),
      read_tree_by_path_go kv t q = .ok res →
      ∃ tr, tree_trace_go kv t q = .ok tr ∧ tr.length = q.length ∧
        (q ≠ [] → tr.getLast? = some res.index) := by
  intro q
  induction q with
  | nil =>
    intro t res h
    exact ⟨[], rfl, rfl, fun hne => absurd rfl hne⟩
  | cons name rest ih =>
    intro t res h
    rw [read_tree_by_path_go] at h
    rw [tree_trace_go]
    cases hf : Tree.find t name with
    | error e => rw [hf] at h; cases h
    | ok p =>
      obtain ⟨index, meta⟩ := p
      simp only [hf] at h
      by_cases hd : meta.is_dir = true
      · simp only [hd, if_true] at h
        cases hr : read_tree_by_id kv index with
        | error e => simp [hr] at h
        | ok t1 =>
          simp only [hr] at h
          obtain ⟨tr', htr', hlen', hlast'⟩ := ih t1 res h
          refine ⟨index :: tr', ?_, by simp [hlen'], fun _ => ?_⟩
          · simp [hd, hr, htr']
          · cases hrest : rest with
            | nil =>
              subst hrest
              have htrnil : tr' = [] := List.length_eq_zero.mp (by simpa using hlen')
              subst htrnil
              rw [read_tree_by_path_go] at h
              cases h
              simp [read_tree_by_id_index kv index res hr]
            | cons a b =>
              have : tr' ≠ [] := by
                intro hnil
                rw [hnil, hrest] at hlen'
                simp at hlen'
              obtain ⟨x, xs, hxs⟩ : ∃ x xs, tr' = x :: xs := by
                cases tr' with
                | nil => exact absurd rfl this
                | cons x xs => exact ⟨x, xs, rfl⟩
              rw [hxs, List.getLast?_cons_cons, ← hxs]
              exact hlast' (by simp [hrest])
      · simp only [hd] at h
        simp at h

theorem read_tree_by_path_go_update (kv kv' : FtpKv)
    (newItems : Kmap String (Nat × Meta)) :
    ∀ (q : List String) (t res : Tree) (tr : List Nat),
      q ≠ [] →
      read_tree_by_path_go kv t q = .ok res →
      tree_trace_go kv t q = .ok tr →
      (∀ j ∈ tr.dropLast, lookupK kv' j = lookupK kv j) →
      lookupK kv' res.index = some (.tree newItems) →
      read_tree_by_path_go kv' t q = .ok ⟨newItems, res.index⟩ := by
  intro q
  induction q with
  | nil => intro t res tr hne; exact absurd rfl hne
  | cons name rest ih =>
    intro t res tr _ hgo htr hframe hnew
    rw [read_tree_by_path_go] at hgo
    rw [tree_trace_go] at htr
    rw [read_tree_by_path_go]
    cases hf : Tree.find t name with
    | error e => rw [hf] at hgo; cases hgo
    | ok p =>
      obtain ⟨index, meta⟩ := p
      simp only [hf] at hgo htr
      by_cases hd : meta.is_dir = true
      · simp only [hd, if_true] at hgo htr
        simp only [hd, if_true]
        cases hr : read_tree_by_id kv index with
        | error e => simp [hr] at hgo
        | ok t1 =>
          simp only [hr] at hgo htr
          cases htr' : tree_trace_go kv t1 rest with
          | error e => simp [htr'] at htr
          | ok tr' =>
            simp only [htr'] at htr
            cases htr
            cases hrest : rest with
            | nil =>
              subst hrest
              simp only [read_tree_by_path_go] at hgo
              cases hgo
              have hri : res.index = index := read_tree_by_id_index kv index res hr
              rw [read_tree_by_id_of_lookup kv' index newItems (hri ▸ hnew)]
              simp [read_tree_by_path_go, hri]
            | cons a b =>
              have htrne : tr' ≠ [] := by
                intro hnil
                obtain ⟨tr2, htr2, hlen2, _⟩ := tree_trace_go_of_go kv rest t1 res hgo
                rw [htr'] at htr2
                cases htr2
                rw [hnil, hrest] at hlen2
                simp at hlen2
              have hdl : (index :: tr').dropLast = index :: tr'.dropLast := by
                cases tr' with
                | nil => exact absurd rfl htrne
                | cons x xs => rfl
              have hidx : lookupK kv' index = lookupK kv index := by
                refine hframe index ?_
                rw [hdl]
                exact List.mem_cons_self _ _
              rw [read_tree_by_id_congr kv kv' index hidx, hr]
              subst hrest
              show read_tree_by_path_go kv' t1 (a :: b) =
                Except.ok { items := newItems, index := res.index }
              refine ih t1 res tr' (by simp) hgo htr' ?_ hnew
              intro j hj
              refine hframe j ?_
              rw [hdl]
              exact List.mem_cons_of_mem _ hj
      · simp only [hd] at hgo
        simp at hgo

theorem read_tree_by_path_update (kv kv' : FtpKv) (q : List String) (res : Tree)
    (tr : List Nat) (newItems : Kmap String (Nat × Meta))
    (hres : read_tree_by_path kv q = .ok res)
    (htr : tree_trace kv q = .ok tr)
    (hframe : ∀ j ∈ tr.dropLast, lookupK kv' j = lookupK kv j)
    (hnew : lookupK kv' res.index = some (.tree newItems)) :
    read_tree_by_path kv' q = .ok ⟨newItems, res.index⟩ := by
  rw [read_tree_by_path] at hres
  rw [tree_trace] at htr
  rw [read_tree_by_path]
  cases hr : read_tree_by_id kv 0 with
  | error e => simp [hr] at hres
  | ok root =>
    simp only [hr] at hres htr
    cases hq : q with
    | nil =>
      subst hq
      simp only [read_tree_by_path_go] at hres
      cases hres
      have hri : res.index = 0 := read_tree_by_id_index kv 0 res hr
      rw [read_tree_by_id_of_lookup kv' 0 newItems (hri ▸ hnew)]
      simp [read_tree_by_path_go, hri]
    | cons a b =>
      subst hq
      cases htrg : tree_trace_go kv root (a :: b) with
      | error e => simp [htrg] at htr
      | ok tr' =>
        simp only [htrg] at htr
        cases htr
        have htrne : tr' ≠ [] := by
          intro hnil
          obtain ⟨tr2, htr2, hlen2, _⟩ :=
            tree_trace_go_of_go kv (a :: b) root res hres
          rw [htrg] at htr2
          cases htr2
          rw [hnil] at hlen2
          simp at hlen2
        have hdl : (0 :: tr').dropLast = 0 :: tr'.dropLast := by
          cases tr' with
          | nil => exact absurd rfl htrne
          | cons x xs => rfl
        have h0 : lookupK kv' 0 = lookupK kv 0 := by
          refine hframe 0 ?_
          rw [hdl]
          exact List.mem_cons_self _ _
        rw [read_tree_by_id_congr kv kv' 0 h0, hr]
        refine read_tree_by_path_go_update kv kv' newItems (a :: b) root res tr'
          (by simp) hres htrg ?_ hnew
        intro j hj
        refine hframe j ?_
        rw [hdl]
        exact List.mem_cons_of_mem _ hj

/-- C5: for a path `p` whose entry is a regular file with blob `ex`,
`put(p, input, start)` with `start ≤ |ex|` stores `ex[0..start] ++ input`
as the file's blob (reusing the blob index), updates the entry's `len` to
`start + |input|` and its `mtime`, writes the parent tree and returns
`|input|`; with `start > |ex|` it fails with `PermissionDenied`.  A `get`
at offset 0 after the put returns the new contents (so
`put p X 0; put p Y |X|; get p 0 = X ‖ Y`), provided the proper ancestors
of the parent tree are distinct from the two rewritten indices. -/
theorem C5_put_partial (kv : FtpKv) (p : List String) (input : Bytes) (start : Nat)
    (now rfuel : Nat) (rng : Rng) (ptree : Tree) (name : String) (idx : Nat)
    (meta : Meta) (ex : Bytes)
    (hp : read_tree_name_from_path kv p = .ok (ptree, name))
    (hfind : lookupK ptree.items name = some (idx, meta))
    (hfile : meta.is_file = true)
    (hblob : lookupK kv idx = some (.blob ex)) :
    (start ≤ ex.length →
      IntKvFtpFs.put kv p input start now rfuel rng =
        (.ok input.length,
         insertK ptree.index
           (.tree (insertK name (idx, ⟨start + input.length, meta.mode, now⟩) ptree.items))
           (insertK idx (.blob (ex.take start ++ input)) kv),
         rng)) ∧
    (ex.length < start →
      IntKvFtpFs.put kv p input start now rfuel rng =
        (.error .permissionDenied, kv, rng)) ∧
    (∀ tr, start ≤ ex.length →
      tree_trace kv p.dropLast = .ok tr →
      (∀ j ∈ tr.dropLast, j ≠ ptree.index ∧ j ≠ idx) →
      IntKvFtpFs.get (IntKvFtpFs.put kv p input start now rfuel rng).2.1 p 0 =
        .ok (ex.take start ++ input)) := by
  have hid : read_id_meta_by_path kv p = .ok (idx, meta) := by
    rw [read_id_meta_by_path]
    simp [hp, hfind]
  have hbl : read_blob_by_path kv p = .ok ex := by
    rw [read_blob_by_path]
    simp [hid, hfile, read_blob_by_index, hblob]
  have hparent : read_tree_by_path kv p.dropLast = .ok ptree := by
    rw [read_tree_name_from_path] at hp
    cases hq : read_tree_by_path kv p.dropLast with
    | error e => simp [hq] at hp
    | ok t =>
      simp only [hq] at hp
      cases hl : p.getLast? with
      | none => simp [hl] at hp
      | some n =>
        simp only [hl] at hp
        cases hp
        rfl
  have hname : p.getLast? = some name := by
    rw [read_tree_name_from_path] at hp
    simp only [hparent] at hp
    cases hl : p.getLast? with
    | none => simp [hl] at hp
    | some n =>
      simp only [hl] at hp
      cases hp
      rfl
  have hne : ptree.index ≠ idx := by
    intro heq
    rcases read_tree_by_path_shape kv p.dropLast ptree hparent with hsh | ⟨hsh, _⟩ <;>
      rw [heq, hblob] at hsh <;> simp at hsh
  have hbuflen : ∀ hle : start ≤ ex.length,
      ((ex.take start) ++ input).length = start + input.length := by
    intro hle
    simp only [List.length_append, List.length_take]
    omega
  have hmain : start ≤ ex.length →
      IntKvFtpFs.put kv p input start now rfuel rng =
        (.ok input.length,
         insertK ptree.index
           (.tree (insertK name (idx, ⟨start + input.length, meta.mode, now⟩) ptree.items))
           (insertK idx (.blob (ex.take start ++ input)) kv),
         rng) := by
    intro hle
    rw [IntKvFtpFs.put]
    by_cases h0 : 0 < start
    · simp only [if_pos h0, hbl, if_neg (show ¬ex.length < start by omega), hp, hfind,
        hfile, if_true]
      rw [write_tree]
      have hw : ((ex.take start) ++ input).length - start = input.length := by
        rw [hbuflen hle]
        omega
      rw [hw, hbuflen hle]
    · have h00 : start = 0 := by omega
      subst h00
      simp only [if_neg h0, hp, hfind, hfile, if_true]
      rw [write_tree]
      simp [List.take_zero]
  refine ⟨hmain, ?_, ?_⟩
  · intro hgt
    rw [IntKvFtpFs.put]
    have h0 : 0 < start := by omega
    simp [if_pos h0, hbl, if_pos hgt]
  · intro tr hle htr hdisj
    have hres := hmain hle
    set buf := ex.take start ++ input with hbuf
    set T : Kmap String (Nat × Meta) :=
      insertK name (idx, ⟨start + input.length, meta.mode, now⟩) ptree.items with hT
    set kv' : FtpKv :=
      insertK ptree.index (.tree T) (insertK idx (.blob buf) kv) with hkv'
    have hkvres : (IntKvFtpFs.put kv p input start now rfuel rng).2.1 = kv' := by
      rw [hres]
    rw [hkvres]
    have hframe : ∀ j ∈ tr.dropLast, lookupK kv' j = lookupK kv j := by
      intro j hj
      obtain ⟨hj1, hj2⟩ := hdisj j hj
      rw [hkv', lookupK_insertK_ne _ _ hj1, lookupK_insertK_ne _ _ hj2]
    have hnew : lookupK kv' ptree.index = some (.tree T) := by
      rw [hkv']
      exact lookupK_insertK_self _ _ _
    have hwalk : read_tree_by_path kv' p.dropLast = .ok ⟨T, ptree.index⟩ :=
      read_tree_by_path_update kv kv' p.dropLast ptree tr T hparent htr hframe hnew
    have hlook' : lookupK kv' idx = some (.blob buf) := by
      rw [hkv', lookupK_insertK_ne _ _ (fun hh => hne hh.symm)]
      exact lookupK_insertK_self _ _ _
    rw [IntKvFtpFs.get, read_blob_by_path, read_id_meta_by_path,
      read_tree_name_from_path]
    simp only [hwalk, hname]
    have hfind' : lookupK T name = some (idx, ⟨start + input.length, meta.mode, now⟩) := by
      rw [hT]
      exact lookupK_insertK_self _ _ _
    simp only [hfind']
    have hfile' : Meta.is_file ⟨start + input.length, meta.mode, now⟩ = true := by
      simpa [Meta.is_file] using hfile
    simp only [hfile', if_true, read_blob_by_index, hlook']
    cases hb : buf with
    | nil => simp
    | cons x xs => simp

/-- C5 witness: appending `[9, 9]` at offset 2 to the 4-byte file `/f`. -/
theorem C5_put_partial_witness :
    (2 : Nat) ≤ 4 ∧
    IntKvFtpFs.put
        [(0, .tree [("f", (5, ⟨4, 0o100644, 0⟩))]), (5, .blob [1, 2, 3, 4])]
        ["f"] [9, 9] 2 7 1 ⟨fun _ => 0, 0⟩ =
      (.ok 2,
       [(0, .tree [("f", (5, ⟨4, 0o100644, 7⟩))]), (5, .blob [1, 2, 9, 9])],
       ⟨fun _ => 0, 0⟩) ∧
    IntKvFtpFs.get
      (IntKvFtpFs.put
        [(0, .tree [("f", (5, ⟨4, 0o100644, 0⟩))]), (5, .blob [1, 2, 3, 4])]
        ["f"] [9, 9] 2 7 1 ⟨fun _ => 0, 0⟩).2.1 ["f"] 0 = .ok [1, 2, 9, 9] := by
  have h := C5_put_partial
    [(0, .tree [("f", (5, ⟨4, 0o100644, 0⟩))]), (5, .blob [1, 2, 3, 4])]
    ["f"] [9, 9] 2 7 1 ⟨fun _ => 0, 0⟩
    ⟨[("f", (5, ⟨4, 0o100644, 0⟩))], 0⟩ "f" 5 ⟨4, 0o100644, 0⟩ [1, 2, 3, 4]
    (by decide) (by decide) (by decide) (by decide)
  refine ⟨by omega, ?_, ?_⟩
  · rw [h.1 (by decide)]
    rfl
  · have h3 := h.2.2 [0] (by decide) (by decide) (by decide)
    simpa using h3

/-- C10 witness. -/
theorem C10_rename_self_witness :
    IntKvFtpFs.rename
      [(0, .tree [("a", (1, ⟨0, 0o040000, 0⟩))]),
       (1, .tree [("b", (2, ⟨1, 0o100644, 0⟩))])] ["a", "b"] ["a", "b"] =
      (.error .permissionDenied,
       [(0, .tree [("a", (1, ⟨0, 0o040000, 0⟩))]),
        (1, .tree [("b", (2, ⟨1, 0o100644, 0⟩))])]) :=
  C10_rename_self _ ["a", "b"] ⟨[("b", (2, ⟨1, 0o100644, 0⟩))], 1⟩ "b"
    (2, ⟨1, 0o100644, 0⟩) (by decide) (by decide)

end X79d8
